import Mathlib

/-!
Verification of the template placeholder engine of the glr-analysis repository
(`modules/template_processor.py` and `modules/llm_validator.py`), shallowly
embedded over lists of characters.  Strings are modelled as `List Char`;
Python's `str.replace`, `in`, `str.strip`, the scanner regular expression
`{{(.*?)}}|\[(.*?)\]` and the whitespace-tolerant `re.sub` patterns of the raw
XML pass are modelled character by character.
-/

namespace GLR

/-- Python `\s` whitespace characters (ASCII range), as consumed by
`str.strip()` and by `\s` in the `re` module. -/
def pyWs (c : Char) : Bool :=
  c = ' ' || c = '\t' || c = '\n' || c = '\r' || c = '\x0b' || c = '\x0c'

/-- Model of Python `str.strip()`. -/
def pyStrip (s : List Char) : List Char :=
  ((s.dropWhile pyWs).reverse.dropWhile pyWs).reverse

/-- The four delimiter characters of the two placeholder syntaxes. -/
def isDelim (c : Char) : Bool :=
  c = '{' || c = '}' || c = '[' || c = ']'

/-- A string free of placeholder delimiter characters. -/
def cleanStr (s : List Char) : Bool := s.all (fun c => !isDelim c)

/-- Model of Python `str.replace old rep` (for nonempty `old`): scan left to
right, replacing non-overlapping occurrences and continuing after each
replacement. -/
def strReplace (old rep : List Char) : List Char → List Char
  | [] => []
  | c :: s =>
    if old ≠ [] ∧ old.isPrefixOf (c :: s) then
      rep ++ strReplace old rep (List.drop (old.length - 1) s)
    else
      c :: strReplace old rep s
termination_by l => l.length
decreasing_by
  · simp; omega
  · simp

/-- Model of Python's substring test `w in s`. -/
def occursIn (w : List Char) : List Char → Bool
  | [] => w.isEmpty
  | c :: s => w.isPrefixOf (c :: s) || occursIn w s

/-- Non-greedy search for the closing `}}` of a `{{...}}` token: the minimal
captured text before the first `}}`, and the remainder after it; fails at a
newline or at end of input (regex `.` does not match a newline). -/
def findClose2 : List Char → Option (List Char × List Char)
  | c :: d :: rest =>
    if c = '}' ∧ d = '}' then some ([], rest)
    else if c = '\n' then none
    else (findClose2 (d :: rest)).map (fun p => (c :: p.1, p.2))
  | _ => none

/-- Non-greedy search for the closing `]` of a `[...]` token. -/
def findClose1 : List Char → Option (List Char × List Char)
  | [] => none
  | c :: rest =>
    if c = ']' then some ([], rest)
    else if c = '\n' then none
    else (findClose1 rest).map (fun p => (c :: p.1, p.2))

theorem findClose2_len : ∀ (s : List Char) (a r : List Char),
    findClose2 s = some (a, r) → r.length + 2 ≤ s.length := by
  intro s
  induction s with
  | nil => intro a r h; simp [findClose2] at h
  | cons c t ih =>
    intro a r h
    cases t with
    | nil => simp [findClose2] at h
    | cons d rest =>
      rw [findClose2] at h
      by_cases h1 : c = '}' ∧ d = '}'
      · rw [if_pos h1] at h
        cases h; simp
      · rw [if_neg h1] at h
        by_cases h2 : c = '\n'
        · rw [if_pos h2] at h; simp at h
        · rw [if_neg h2] at h
          cases hp : findClose2 (d :: rest) with
          | none => rw [hp] at h; simp at h
          | some p =>
            rw [hp, Option.map_some'] at h
            injection h with h'
            rw [Prod.mk.injEq] at h'
            obtain ⟨ha, hr⟩ := h'
            subst hr
            have := ih p.1 p.2 (by rw [hp])
            simp at this ⊢
            omega

theorem findClose1_len : ∀ (s : List Char) (a r : List Char),
    findClose1 s = some (a, r) → r.length + 1 ≤ s.length := by
  intro s
  induction s with
  | nil => intro a r h; simp [findClose1] at h
  | cons c rest ih =>
    intro a r h
    rw [findClose1] at h
    by_cases h1 : c = ']'
    · rw [if_pos h1] at h
      cases h; simp
    · rw [if_neg h1] at h
      by_cases h2 : c = '\n'
      · rw [if_pos h2] at h; simp at h
      · rw [if_neg h2] at h
        cases hp : findClose1 rest with
        | none => rw [hp] at h; simp at h
        | some p =>
          rw [hp, Option.map_some'] at h
          injection h with h'
          rw [Prod.mk.injEq] at h'
          obtain ⟨ha, hr⟩ := h'
          subst hr
          have := ih p.1 p.2 (by rw [hp])
          simp at this ⊢
          omega

/-- Model of `re.findall` for the scanner pattern `{{(.*?)}}|\[(.*?)\]`:
the list of captured names, in match order.  (In the source, `findall`
returns pairs of alternation groups and the non-empty group is selected;
that selection yields exactly the capture of whichever branch matched.) -/
def findall : List Char → List (List Char)
  | '{' :: '{' :: r =>
    match h : findClose2 r with
    | some p => p.1 :: findall p.2
    | none => findall ('{' :: r)
  | '[' :: r =>
    match h : findClose1 r with
    | some p => p.1 :: findall p.2
    | none => findall r
  | _ :: s => findall s
  | [] => []
termination_by l => l.length
decreasing_by
  · have := findClose2_len r p.1 p.2 (by rw [h])
    simp; omega
  · simp
  · have := findClose1_len r p.1 p.2 (by rw [h])
    simp; omega
  · simp
  · simp

/-- Python string comparison `<` (lexicographic on code points). -/
def ltStr : List Char → List Char → Bool
  | [], [] => false
  | [], _ :: _ => true
  | _ :: _, [] => false
  | a :: s, b :: t => if a < b then true else if b < a then false else ltStr s t

/-- Insert a name into a lexicographically sorted duplicate-free list,
keeping it sorted and duplicate-free.  Folding this over all collected
names models Python's `sorted(set(...))`. -/
def insSorted (x : List Char) : List (List Char) → List (List Char)
  | [] => [x]
  | y :: ys =>
    if ltStr x y then x :: y :: ys
    else if x = y then y :: ys
    else y :: insSorted x ys

/-- `sorted(set(l))` for a list of collected names. -/
def sortedNames (l : List (List Char)) : List (List Char) :=
  l.foldl (fun acc n => insSorted n acc) []

/-!
## Document model

A run is python-docx's minimal formatting unit: a text fragment plus
character formatting.  `bold`, `italic` and `underline` are tri-state
(`None`/`True`/`False`).  `style` models the run's character style object
(an object is truthy in Python whenever it is not `None`).  `fontSize`,
`fontName` and `fontColor` model `run.font.size` (`None` or a `Length`
integer), `run.font.name` (`None` or a string) and `run.font.color.rgb`
(`None` or an `RGBColor`, itself a string of hex digits); Python truthiness
of these is `≠ None` and nonzero/nonempty.
-/

structure Run where
  text : List Char
  bold : Option Bool := none
  italic : Option Bool := none
  underline : Option Bool := none
  style : Option (List Char) := none
  fontSize : Option Nat := none
  fontName : Option (List Char) := none
  fontColor : Option (List Char) := none
  deriving Repr, DecidableEq

structure Paragraph where
  runs : List Run
  deriving Repr, DecidableEq

/-- `paragraph.text`: the concatenation of the texts of the paragraph's runs. -/
def parText (p : Paragraph) : List Char :=
  (p.runs.map Run.text).flatten

structure Cell where
  paragraphs : List Paragraph
  deriving Repr, DecidableEq

structure TableRow where
  cells : List Cell
  deriving Repr, DecidableEq

structure Table where
  rows : List TableRow
  deriving Repr, DecidableEq

/-- A header or footer: paragraphs plus tables. -/
structure HeaderFooter where
  paragraphs : List Paragraph
  tables : List Table
  deriving Repr, DecidableEq

structure Sect where
  header : HeaderFooter
  footer : HeaderFooter
  deriving Repr, DecidableEq

/-- A python-docx `Document`.  `sections = none` models a document on which
enumerating `doc.sections` (or the headers/footers underneath) raises, which
the source code absorbs with `try/except`; `some l` is a normal document
with section list `l`. -/
structure Doc where
  paragraphs : List Paragraph
  tables : List Table
  sections : Option (List Sect)
  deriving Repr, DecidableEq

/-- All table-cell paragraphs of a table, in iteration order. -/
def tablePars (t : Table) : List Paragraph :=
  t.rows.flatMap (fun r => r.cells.flatMap Cell.paragraphs)

/-- Paragraphs of a header/footer: its paragraphs, then its table cells'. -/
def hfPars (h : HeaderFooter) : List Paragraph :=
  h.paragraphs ++ h.tables.flatMap tablePars

/-- Paragraphs of a section: header paragraphs and tables, then footer. -/
def sectPars (s : Sect) : List Paragraph :=
  hfPars s.header ++ hfPars s.footer

/-- Every paragraph the scanner and the substitution engine visit, in
visit order: body paragraphs, body table cells, then each section's header
and footer regions.  A raising/absent section list contributes nothing. -/
def docPars (d : Doc) : List Paragraph :=
  d.paragraphs ++ d.tables.flatMap tablePars ++
    (match d.sections with
     | none => []
     | some ss => ss.flatMap sectPars)

/-!
## Placeholder scanner (`extract_placeholders`)
-/

/-- The stripped captures the scanner collects from one paragraph text. -/
def parNames (t : List Char) : List (List Char) :=
  (findall t).map pyStrip

/-- All names collected over the whole document, in scan order. -/
def docNames (d : Doc) : List (List Char) :=
  (docPars d).map parText |>.flatMap parNames

/-- `extract_placeholders`: scan body paragraphs, body table cells, and every
section's header/footer paragraphs and table cells, collect the stripped
captures of `{{(.*?)}}|\[(.*?)\]` over each paragraph's assembled text into a
set, and return it sorted. -/
def extract_placeholders (d : Doc) : List (List Char) :=
  sortedNames (docNames d)

/-!
## Run-preserving substitution engine (`fill_docx_template`)
-/

/-- `"{{" + k + "}}"`. -/
def varC (k : List Char) : List Char := '{' :: '{' :: (k ++ ['}', '}'])

/-- `"{{ " + k + " }}"`. -/
def varCS (k : List Char) : List Char := '{' :: '{' :: ' ' :: (k ++ [' ', '}', '}'])

/-- `"[" + k + "]"`. -/
def varB (k : List Char) : List Char := '[' :: (k ++ [']'])

/-- `"[ " + k + " ]"`. -/
def varBS (k : List Char) : List Char := '[' :: ' ' :: (k ++ [' ', ']'])

/-- The four token variants of a (stripped) field name. -/
def variantsOf (k : List Char) : List (List Char) :=
  [varC k, varCS k, varB k, varBS k]

/-- Replace the four variants in sequence, as the source does. -/
def replace4 (k v s : List Char) : List Char :=
  strReplace (varBS k) v (strReplace (varB k) v (strReplace (varCS k) v (strReplace (varC k) v s)))

/-- `any of the four variants occurs in t` — the fast path's guard. -/
def runHit (k t : List Char) : Bool :=
  occursIn (varC k) t || occursIn (varCS k) t || occursIn (varB k) t || occursIn (varBS k) t

/-- A field mapping: association list of (raw key, value), in Python dict
iteration (= insertion) order. -/
abbrev Mapping := List (List Char × List Char)

/-- One run's pass over the whole mapping in the fast path: starting from
`(text, changed)`, each key whose (stripped) variants occur in the current
text has all four variants replaced and marks the run changed. -/
def fastPathText : Mapping → List Char → Bool → List Char × Bool
  | [], t, c => (t, c)
  | (key, v) :: m, t, c =>
    if runHit (pyStrip key) t then
      fastPathText m (replace4 (pyStrip key) v t) true
    else
      fastPathText m t c

/-- The fast path on one run: its text is updated only if some key matched. -/
def fastPathRun (m : Mapping) (r : Run) : Run × Bool :=
  let p := fastPathText m r.text false
  if p.2 then ({ r with text := p.1 }, true) else (r, false)

/-- The fast path on a paragraph: every run processed; `replaced_in_runs`
is true when at least one run changed. -/
def fastPath (m : Mapping) (p : Paragraph) : Paragraph × Bool :=
  let l := p.runs.map (fastPathRun m)
  (⟨l.map Prod.fst⟩, l.any Prod.snd)

/-- Textual substitution of all keys over an assembled paragraph text, in
mapping order (the fallback path's computation). -/
def substAll (m : Mapping) (s : List Char) : List Char :=
  m.foldl (fun t kv => replace4 (pyStrip kv.1) kv.2 t) s

/-- A fresh run created by `paragraph.add_run`: no explicit formatting. -/
def newRun (t : List Char) : Run := { text := t }

/-- The single replacement run built by the fallback path from the first
original run `r0`: bold/italic/underline are assigned unconditionally;
style, font size, font name and font color only when truthy on `r0`. -/
def carryRun (r0 : Run) (t : List Char) : Run :=
  { text := t
    bold := r0.bold
    italic := r0.italic
    underline := r0.underline
    style := if r0.style.isSome then r0.style else none
    fontSize := if (match r0.fontSize with | none => false | some n => n ≠ 0) then r0.fontSize else none
    fontName := if (match r0.fontName with | none => false | some s => s ≠ []) then r0.fontName else none
    fontColor := if (match r0.fontColor with | none => false | some s => s ≠ []) then r0.fontColor else none }

/-- The fallback path: textual substitution over the assembled text; if it
changed the text, remove every run and rebuild the paragraph as one run
carrying the first original run's formatting. -/
def fallbackPar (m : Mapping) (p : Paragraph) : Paragraph :=
  if substAll m (parText p) = parText p then p
  else
    match p.runs with
    | [] => ⟨[newRun (substAll m (parText p))]⟩
    | r0 :: _ => ⟨[carryRun r0 (substAll m (parText p))]⟩

/-- `replace_paragraph_placeholders`: fast path over runs; if no run changed,
the fallback path over the paragraph's assembled text. -/
def processParagraph (m : Mapping) (p : Paragraph) : Paragraph :=
  if (fastPath m p).2 then (fastPath m p).1 else fallbackPar m p

/-- `fill_docx_template`: run the per-paragraph engine over body paragraphs,
body table cells, and (when sections are accessible) every section's header
and footer paragraphs and table cells. -/
def fill_docx_template (m : Mapping) (d : Doc) : Doc :=
  { paragraphs := d.paragraphs.map (processParagraph m)
    tables := d.tables.map (fun t =>
      ⟨t.rows.map (fun r =>
        ⟨r.cells.map (fun c => ⟨c.paragraphs.map (processParagraph m)⟩)⟩)⟩)
    sections := d.sections.map (fun ss => ss.map (fun s =>
      { header := ⟨s.header.paragraphs.map (processParagraph m),
                   s.header.tables.map (fun t =>
                     ⟨t.rows.map (fun r =>
                       ⟨r.cells.map (fun c => ⟨c.paragraphs.map (processParagraph m)⟩)⟩)⟩)⟩
        footer := ⟨s.footer.paragraphs.map (processParagraph m),
                   s.footer.tables.map (fun t =>
                     ⟨t.rows.map (fun r =>
                       ⟨r.cells.map (fun c => ⟨c.paragraphs.map (processParagraph m)⟩)⟩)⟩)⟩ })) }

/-!
## Raw-package substitution pass (`_xml_replace_in_docx_bytes`)

A zip archive is a list of named entries.  Entry contents are modelled at
text level: `isText` records whether the bytes decode as UTF-8 (decoding
and re-encoding valid UTF-8 is byte-identical, so the decode/encode round
trip is the identity on `data`).
-/

structure ZipEntry where
  name : List Char
  data : List Char
  isText : Bool
  deriving Repr, DecidableEq

abbrev Archive := List ZipEntry

def isOctDigit (c : Char) : Bool := '0' ≤ c && c ≤ '7'

def octVal (c : Char) : Nat := c.toNat - '0'.toNat

/-- Python `re` replacement-template processing (`re._parser.parse_template`),
restricted to a pattern with no capture groups, as built by the source from
`re.escape(key)`: `\\` and the letter escapes `\a \b \f \n \r \t \v` expand
to their characters, octal escapes `\0oo`/`\ooo` to their code points, any
other letter escape or group reference (`\g`, `\1`…`\9` without two further
octal digits) raises `re.error`, a backslash before a non-alphanumeric
character is kept verbatim, and a trailing backslash raises. -/
def parseTemplate : List Char → Except Unit (List Char)
  | [] => .ok []
  | '\\' :: [] => .error ()
  | '\\' :: c :: rest =>
    if c = '\\' then (parseTemplate rest).map (fun t => '\\' :: t)
    else if c = 'a' then (parseTemplate rest).map (fun t => '\x07' :: t)
    else if c = 'b' then (parseTemplate rest).map (fun t => '\x08' :: t)
    else if c = 'f' then (parseTemplate rest).map (fun t => '\x0c' :: t)
    else if c = 'n' then (parseTemplate rest).map (fun t => '\n' :: t)
    else if c = 'r' then (parseTemplate rest).map (fun t => '\x0d' :: t)
    else if c = 't' then (parseTemplate rest).map (fun t => '\t' :: t)
    else if c = 'v' then (parseTemplate rest).map (fun t => '\x0b' :: t)
    else if isOctDigit c then
      match rest with
      | d1 :: d2 :: rest' =>
        if isOctDigit d1 && isOctDigit d2 then
          (parseTemplate rest').map
            (fun t => Char.ofNat (octVal c * 64 + octVal d1 * 8 + octVal d2) :: t)
        else if c = '0' then
          if isOctDigit d1 then
            (parseTemplate (d2 :: rest')).map (fun t => Char.ofNat (octVal d1) :: t)
          else (parseTemplate (d1 :: d2 :: rest')).map (fun t => Char.ofNat 0 :: t)
        else .error ()
      | [d1] =>
        if c = '0' then
          if isOctDigit d1 then (parseTemplate []).map (fun t => Char.ofNat (octVal d1) :: t)
          else (parseTemplate [d1]).map (fun t => Char.ofNat 0 :: t)
        else .error ()
      | [] => if c = '0' then .ok [Char.ofNat 0] else .error ()
    else if c.isDigit then .error ()
    else if c.isAlpha then .error ()
    else (parseTemplate rest).map (fun t => '\\' :: c :: t)
  | c :: rest => (parseTemplate rest).map (fun t => c :: t)

/-- Match the compiled pattern `\{\{\s*k\s*\}\}` at the head of `s` (for a
stripped `k`, the greedy `\s*` is exactly maximal whitespace munching);
returns the remainder after the match. -/
def matchCurlyWs (k s : List Char) : Option (List Char) :=
  match s with
  | '{' :: '{' :: r =>
    let r1 := r.dropWhile pyWs
    if k.isPrefixOf r1 then
      match (r1.drop k.length).dropWhile pyWs with
      | '}' :: '}' :: r3 => some r3
      | _ => none
    else none
  | _ => none

/-- Match the compiled pattern `\[\s*k\s*\]` at the head of `s`. -/
def matchBrackWs (k s : List Char) : Option (List Char) :=
  match s with
  | '[' :: r =>
    let r1 := r.dropWhile pyWs
    if k.isPrefixOf r1 then
      match (r1.drop k.length).dropWhile pyWs with
      | ']' :: r3 => some r3
      | _ => none
    else none
  | _ => none

/-- The scanning loop of `re.sub` for a matcher that consumes at least one
character: at each position try the pattern; on a match emit the expanded
replacement and resume after it, otherwise keep the character.  The fuel
argument (structurally decreasing, supplied as the text's length, an upper
bound on the number of scanning steps since each step strictly shortens the
text) makes the definition kernel-computable. -/
def reSubAux (mt : List Char → Option (List Char)) (v : List Char) :
    Nat → List Char → List Char
  | _, [] => []
  | 0, s => s
  | fuel + 1, c :: s =>
    match mt (c :: s) with
    | some r => v ++ reSubAux mt v fuel r
    | none => c :: reSubAux mt v fuel s

/-- `re.sub(pattern, value, text)`: the replacement template is parsed
eagerly (raising on a bad escape even when nothing matches), then the text
is scanned. -/
def reSubCurly (k v t : List Char) : Except Unit (List Char) :=
  (parseTemplate v).map (fun w => reSubAux (matchCurlyWs k) w t.length t)

def reSubBrack (k v t : List Char) : Except Unit (List Char) :=
  (parseTemplate v).map (fun w => reSubAux (matchBrackWs k) w t.length t)

/-- The per-entry replacement loop: for each mapped key in order, first the
curly-brace pattern, then the bracket pattern. -/
def xmlSubstText (m : Mapping) (t : List Char) : Except Unit (List Char) :=
  m.foldlM (fun t kv => do
    let t1 ← reSubCurly (pyStrip kv.1) kv.2 t
    reSubBrack (pyStrip kv.1) kv.2 t1) t

def wordSlash : List Char := ['w', 'o', 'r', 'd', '/']

def dotXml : List Char := ['.', 'x', 'm', 'l']

/-- Whether an archive entry is eligible for the raw pass:
`name.startswith('word/') and name.endswith('.xml')`. -/
def eligibleEntry (e : ZipEntry) : Bool :=
  wordSlash.isPrefixOf e.name && dotXml.isSuffixOf e.name

/-- The raw pass on one archive entry: rewrite an eligible, decodable entry
through the per-key whitespace-tolerant substitutions; copy any other entry
(and any undecodable one) through unchanged. -/
def rawEntry (m : Mapping) (e : ZipEntry) : Except Unit ZipEntry :=
  if eligibleEntry e then
    if e.isText then (xmlSubstText m e.data).map (fun t => { e with data := t })
    else pure e
  else pure e

/-- `_xml_replace_in_docx_bytes`: rewrite every entry in the original entry
order.  A `re.error` raised while substituting propagates to the caller. -/
def xml_replace_in_docx_bytes (m : Mapping) (a : Archive) : Except Unit Archive :=
  a.mapM (rawEntry m)

/-!
## Edit normalizer and `save_document`
-/

/-- First stripping step of the edit normalizer: remove a `{{ }}` wrapping. -/
def stripCurlyWrap (k : List Char) : List Char :=
  if ['{', '{'].isPrefixOf k && ['}', '}'].isSuffixOf k then
    pyStrip ((k.drop 2).dropLast.dropLast)
  else k

/-- Second stripping step of the edit normalizer: remove a `[ ]` wrapping. -/
def stripBrackWrap (k : List Char) : List Char :=
  if ['['].isPrefixOf k && [']'].isSuffixOf k then
    pyStrip ((k.drop 1).dropLast)
  else k

/-- Key normalization of `apply_text_edits_to_docx_bytes`: strip, then an
`if` removing a `{{ }}` wrapping, then a second (not `elif`!) `if` removing
a `[ ]` wrapping from whatever the first step produced. -/
def normalizeEditKey (k0 : List Char) : List Char :=
  stripBrackWrap (stripCurlyWrap (pyStrip k0))

/-- Python dict assignment `d[k] = v`: overwrite in place or append. -/
def dictInsert (k v : List Char) (d : Mapping) : Mapping :=
  if d.any (fun kv => kv.1 = k) then
    d.map (fun kv => if kv.1 = k then (k, v) else kv)
  else d ++ [(k, v)]

/-- The normalized dict built by `apply_text_edits_to_docx_bytes`. -/
def normalizeEdits (edits : Mapping) : Mapping :=
  edits.foldl (fun d kv => dictInsert (normalizeEditKey kv.1) kv.2 d) []

def apply_text_edits_to_docx_bytes (edits : Mapping) (a : Archive) : Except Unit Archive :=
  xml_replace_in_docx_bytes (normalizeEdits edits) a

/-- `save_document`: serialize (here: the already-serialized archive `raw`),
and when a truthy mapping is supplied run the raw pass, returning the
structural bytes unchanged if that pass raises.  `m = []` models both
`mapping=None` and an empty dict (both falsy). -/
def save_document (raw : Archive) (m : Mapping) : Archive :=
  if m ≠ [] then
    match xml_replace_in_docx_bytes m raw with
    | .ok final => final
    | .error _ => raw
  else raw

/-!
## Validation collaborator (`llm_validator.validate_filled_docx_bytes`)

The external Gemini client is abstracted: `clientOk = false` models
`genai.Client(...)` raising (caught, leaving `client = None`), and
`callResult = none` models `generate_content`/JSON parsing raising;
`callResult = some r` is a successful call with already-normalized result.
-/

inductive VStatus
  | ok
  | modify
  | placeholdersLeft
  | error
  deriving Repr, DecidableEq

structure VResult where
  status : VStatus
  issues : List (List Char)
  suggestedMapping : Mapping
  suggestedTextEdits : Mapping
  deriving Repr, DecidableEq

/-- Python truthiness of the `api_key` argument (`None` or a string). -/
def apiTruthy : Option (List Char) → Bool
  | none => false
  | some s => !s.isEmpty

def noKeyResult : VResult :=
  { status := .error
    issues := [("No API key available for LLM validation.").toList]
    suggestedMapping := []
    suggestedTextEdits := [] }

def callFailResult : VResult :=
  { status := .error
    issues := [("LLM validation failed.").toList]
    suggestedMapping := []
    suggestedTextEdits := [] }

def validate_filled_docx_bytes (apiKey : Option (List Char)) (clientOk : Bool)
    (callResult : Option VResult) : VResult :=
  if apiTruthy apiKey && clientOk then
    match callResult with
    | some r => r
    | none => callFailResult
  else noKeyResult

/-!
## Token-segmentation vocabulary

To reason about the substitution engine we describe texts as concatenations
of segments: delimiter-free literal fragments and exact token variants of
well-formed field names.  A well-formed (`goodKey`) field name is nonempty,
contains no placeholder delimiter, and neither starts nor ends with
whitespace (as `str(key).strip()` guarantees).
-/

def goodKey : List Char → Bool
  | [] => false
  | c :: t =>
    !pyWs c && cleanStr (c :: t) &&
      (match (c :: t).getLast? with
       | some d => !pyWs d
       | none => false)

/-- Keys good and stripped-equal, values clean: the well-formedness of a
mapping under which the engine's textual substitution is exact. -/
def goodMapping (m : Mapping) : Bool :=
  m.all (fun kv => goodKey kv.1 && cleanStr kv.2)

/-- The stripped keys of a mapping, in order. -/
def keysOf (m : Mapping) : List (List Char) :=
  m.map (fun kv => pyStrip kv.1)

inductive VKind
  | c
  | cs
  | b
  | bs
  deriving Repr, DecidableEq

def renderV : VKind → List Char → List Char
  | .c, k => varC k
  | .cs, k => varCS k
  | .b, k => varB k
  | .bs, k => varBS k

inductive Seg
  | lit : List Char → Seg
  | tok : VKind → List Char → Seg
  deriving Repr, DecidableEq

def segStr : Seg → List Char
  | .lit l => l
  | .tok v k => renderV v k

def goodSeg : Seg → Bool
  | .lit l => cleanStr l
  | .tok _ k => goodKey k

/-- The text described by a segment list. -/
def segsStr (segs : List Seg) : List Char :=
  (segs.map segStr).flatten

/-- The keys of the token segments of a segmentation. -/
def tokKeys (segs : List Seg) : List (List Char) :=
  segs.filterMap (fun s =>
    match s with
    | .tok _ k => some k
    | .lit _ => none)

/-- Replacing one exact variant string `w` by a literal, segment-wise. -/
def segRep (w v : List Char) : Seg → Seg
  | .lit l => .lit l
  | .tok vk k => if renderV vk k = w then .lit v else .tok vk k

/-- Segment-level effect of one key's four sequential replacements on one
segment. -/
def segRepKey (k v : List Char) (s : Seg) : Seg :=
  segRep (varBS k) v (segRep (varB k) v (segRep (varCS k) v (segRep (varC k) v s)))

/-- Segment-level effect of one key's four sequential replacements. -/
def applyKeySegs (k v : List Char) (segs : List Seg) : List Seg :=
  (((segs.map (segRep (varC k) v)).map (segRep (varCS k) v)).map
    (segRep (varB k) v)).map (segRep (varBS k) v)

/-- Segment-level effect of a whole mapping, in mapping order. -/
def applySegs (m : Mapping) (segs : List Seg) : List Seg :=
  m.foldl (fun ss kv => applyKeySegs (pyStrip kv.1) kv.2 ss) segs

/-- Whether, processing the mapping in order over an (evolving) segmented
text, some key's fast-path guard fires — mirrors `fastPathText`'s
changed-flag on a segmented text. -/
def segsHit : Mapping → List Seg → Bool
  | [], _ => false
  | kv :: m', segs =>
    runHit (pyStrip kv.1) (segsStr segs) ||
      segsHit m' (applyKeySegs (pyStrip kv.1) kv.2 segs)

/-- Every run of the paragraph is a concatenation of delimiter-free
literals and exact token variants of mapped keys (in particular, every
token lies within a single run). -/
def RunsSegmented (m : Mapping) (p : Paragraph) : Prop :=
  ∀ r ∈ p.runs, ∃ segs : List Seg, r.text = segsStr segs ∧
    (∀ s ∈ segs, goodSeg s = true) ∧ ∀ k ∈ tokKeys segs, k ∈ keysOf m

/-- The fast path changes no run, and the paragraph's assembled text is a
concatenation of delimiter-free literals and token variants of mapped keys
(tokens may span run boundaries). -/
def ParSegmented (m : Mapping) (p : Paragraph) : Prop :=
  (fastPath m p).2 = false ∧ ∃ segs : List Seg, parText p = segsStr segs ∧
    (∀ s ∈ segs, goodSeg s = true) ∧ ∀ k ∈ tokKeys segs, k ∈ keysOf m

/-- Per-paragraph well-formedness under which the engine's substitution is
exact: either every token lies within a single run, or no run is touched by
the fast path and the assembled text is well segmented. -/
def C1Hyp (m : Mapping) (p : Paragraph) : Prop :=
  RunsSegmented m p ∨ ParSegmented m p

/-- A probe result for exercising the external-client parameter. -/
def okProbe : VResult :=
  { status := VStatus.ok, issues := [], suggestedMapping := [], suggestedTextEdits := [] }

/-!
# Theorems
-/

/-- C8: calling the validation collaborator with a falsy `api_key`
deterministically returns status `error`, with a nonempty issue list and
empty suggested mappings; it never returns `ok` in that case, regardless of
the external client's behavior. -/
theorem C8_validator_fallback (apiKey : Option (List Char)) (clientOk : Bool)
    (callResult : Option VResult) (h : apiTruthy apiKey = false) :
    validate_filled_docx_bytes apiKey clientOk callResult = noKeyResult ∧
    (validate_filled_docx_bytes apiKey clientOk callResult).status = VStatus.error ∧
    (validate_filled_docx_bytes apiKey clientOk callResult).status ≠ VStatus.ok ∧
    (validate_filled_docx_bytes apiKey clientOk callResult).issues ≠ [] ∧
    (validate_filled_docx_bytes apiKey clientOk callResult).suggestedMapping = [] ∧
    (validate_filled_docx_bytes apiKey clientOk callResult).suggestedTextEdits = [] := by
  unfold validate_filled_docx_bytes
  rw [h]
  simp [noKeyResult]

theorem C8_validator_fallback_witness :
    apiTruthy none = false ∧
    validate_filled_docx_bytes none true (some okProbe) = noKeyResult :=
  ⟨by decide, (C8_validator_fallback none true (some okProbe) (by decide)).1⟩

/-- C9: when enumerating sections raises (`sections = none`), both the
scanner and the engine treat the header/footer region as empty and still
deliver the result computed from body paragraphs and body table cells: the
scanner returns what it returns on the same document with no sections, and
the engine still substitutes the whole body. -/
theorem C9_sections_absent (d : Doc) (m : Mapping) (h : d.sections = none) :
    extract_placeholders d =
      extract_placeholders { paragraphs := d.paragraphs, tables := d.tables,
                             sections := some [] } ∧
    extract_placeholders d =
      sortedNames (((d.paragraphs ++ d.tables.flatMap tablePars).map parText).flatMap parNames) ∧
    fill_docx_template m d =
      { paragraphs := d.paragraphs.map (processParagraph m)
        tables := d.tables.map (fun t =>
          ⟨t.rows.map (fun r =>
            ⟨r.cells.map (fun c => ⟨c.paragraphs.map (processParagraph m)⟩)⟩)⟩)
        sections := none } := by
  refine ⟨?_, ?_, ?_⟩
  · unfold extract_placeholders docNames docPars
    rw [h]
    simp
  · unfold extract_placeholders docNames docPars
    rw [h]
    simp
  · unfold fill_docx_template
    rw [h]
    rfl

theorem C9_sections_absent_witness :
    extract_placeholders ⟨[⟨[{ text := ['[', 'A', ']'] }]⟩], [], none⟩ =
      extract_placeholders ⟨[⟨[{ text := ['[', 'A', ']'] }]⟩], [], some []⟩ :=
  (C9_sections_absent ⟨[⟨[{ text := ['[', 'A', ']'] }]⟩], [], none⟩ [] rfl).1

/-- C10: if the raw-package pass raises (as it does, e.g., when a mapping
value contains a `re`-template bad escape such as a backslash before a
letter), `save_document` catches the exception and returns the
structural-pass bytes unchanged. -/
theorem C10_save_document_catches (raw : Archive) (m : Mapping) (e : Unit)
    (hm : m ≠ []) (h : xml_replace_in_docx_bytes m raw = .error e) :
    save_document raw m = raw := by
  unfold save_document
  rw [if_pos hm, h]

theorem C10_save_document_catches_witness :
    xml_replace_in_docx_bytes [(['K'], ['a', '\\', 'd'])]
        [⟨("word/document.xml").toList, ['x'], true⟩] = .error () ∧
    save_document [⟨("word/document.xml").toList, ['x'], true⟩]
        [(['K'], ['a', '\\', 'd'])] =
      [⟨("word/document.xml").toList, ['x'], true⟩] :=
  ⟨by rfl,
   C10_save_document_catches _ [(['K'], ['a', '\\', 'd'])] () (by simp) (by rfl)⟩

/-!
## C7: the edit normalizer strips both wrappings in sequence
-/

theorem pyStrip_wrap (a b : Char) (x : List Char) (ha : pyWs a = false)
    (hb : pyWs b = false) : pyStrip (a :: (x ++ [b])) = a :: (x ++ [b]) := by
  unfold pyStrip
  rw [List.dropWhile_cons]
  simp only [ha, Bool.false_eq_true, if_false]
  rw [show (a :: (x ++ [b])).reverse = b :: (x.reverse ++ [a]) by simp]
  rw [List.dropWhile_cons]
  simp only [hb, Bool.false_eq_true, if_false]
  simp

theorem not_pre_of_clean (d : Char) (rest x : List Char) (hd : isDelim d = true)
    (h : cleanStr x = true) : (d :: rest).isPrefixOf x = false := by
  cases x with
  | nil => rfl
  | cons c t =>
    simp only [List.isPrefixOf, Bool.and_eq_false_imp]
    have hc : isDelim c = false := by
      simp [cleanStr] at h
      exact h.1
    have hdc : (d == c) = false := by
      rcases Bool.eq_false_or_eq_true (d == c) with h' | h'
      · rw [beq_iff_eq] at h'
        rw [h'] at hd
        rw [hd] at hc
        exact absurd hc (by simp)
      · exact h'
    simp [hdc]

theorem cleanStr_reverse (x : List Char) : cleanStr x.reverse = cleanStr x := by
  simp [cleanStr]

theorem not_suf_of_clean_one (d : Char) (x : List Char) (hd : isDelim d = true)
    (h : cleanStr x = true) : [d].isSuffixOf x = false := by
  rw [List.isSuffixOf]
  have : ([d].reverse : List Char) = [d] := rfl
  rw [this]
  exact not_pre_of_clean d [] x.reverse hd (by rw [cleanStr_reverse]; exact h)

theorem not_suf_of_clean_two (d : Char) (x : List Char) (hd : isDelim d = true)
    (h : cleanStr x = true) : [d, d].isSuffixOf x = false := by
  rw [List.isSuffixOf]
  have : ([d, d].reverse : List Char) = [d, d] := rfl
  rw [this]
  exact not_pre_of_clean d [d] x.reverse hd (by rw [cleanStr_reverse]; exact h)

/-- C7 counterexample: on the code, a key wrapped in both syntaxes,
`'{{[X]}}'`, normalizes all the way to the bare name `'X'` (the two
strippings are sequential `if`s, not `if`/`elif`), not to the inner
bracketed form `'[X]'` as the claim states. -/
theorem C7_counterexample :
    normalizeEditKey ['{', '{', '[', 'X', ']', '}', '}'] = ['X'] ∧
    normalizeEditKey ['{', '{', '[', 'X', ']', '}', '}'] ≠ ['[', 'X', ']'] := by
  decide

/-- C7 (amended): for a delimiter-free, already-trimmed name `x`, the
normalizer maps the bare, bracket-wrapped and curly-wrapped forms to `x`;
the two strippings apply in sequence, so a key wrapped in both syntaxes
also normalizes to the bare name `x` (not to the inner bracketed form). -/
theorem C7_edit_normalizer_amended (x : List Char) (hc : cleanStr x = true)
    (hs : pyStrip x = x) :
    normalizeEditKey x = x ∧
    normalizeEditKey ('[' :: (x ++ [']'])) = x ∧
    normalizeEditKey ('{' :: '{' :: (x ++ ['}', '}'])) = x ∧
    normalizeEditKey ('{' :: '{' :: (('[' :: (x ++ [']'])) ++ ['}', '}'])) = x := by
  have hpre : ∀ rest : List Char, ('{' :: rest).isPrefixOf x = false :=
    fun rest => not_pre_of_clean '{' rest x (by decide) hc
  have hpreB : ∀ rest : List Char, ('[' :: rest).isPrefixOf x = false :=
    fun rest => not_pre_of_clean '[' rest x (by decide) hc
  have hsuf : [']'].isSuffixOf x = false := not_suf_of_clean_one ']' x (by decide) hc
  have hsuf2 : ['}', '}'].isSuffixOf x = false := not_suf_of_clean_two '}' x (by decide) hc
  have hbrackX : stripBrackWrap x = x := by
    unfold stripBrackWrap
    rw [hpreB []]
    simp
  have hcurlX : stripCurlyWrap x = x := by
    unfold stripCurlyWrap
    rw [hpre ['{']]
    simp
  have hbrackW : stripBrackWrap ('[' :: (x ++ [']'])) = x := by
    unfold stripBrackWrap
    have h2 : (['['] : List Char).isPrefixOf ('[' :: (x ++ [']'])) = true := by
      simp [List.isPrefixOf]
    have h3 : ([']'] : List Char).isSuffixOf ('[' :: (x ++ [']'])) = true := by
      rw [List.isSuffixOf]
      simp [List.isPrefixOf]
    rw [h2, h3]
    simp only [Bool.and_self, if_true]
    rw [show ('[' :: (x ++ [']'])).drop 1 = x ++ [']'] from rfl]
    rw [List.dropLast_concat]
    exact hs
  refine ⟨?_, ?_, ?_, ?_⟩
  · unfold normalizeEditKey
    rw [hs, hcurlX, hbrackX]
  · unfold normalizeEditKey
    rw [pyStrip_wrap '[' ']' x (by decide) (by decide)]
    have h1 : stripCurlyWrap ('[' :: (x ++ [']'])) = '[' :: (x ++ [']']) := by
      unfold stripCurlyWrap
      have : (['{', '{'] : List Char).isPrefixOf ('[' :: (x ++ [']'])) = false := by
        simp [List.isPrefixOf]
      rw [this]
      simp
    rw [h1, hbrackW]
  · unfold normalizeEditKey
    rw [show ('{' :: '{' :: (x ++ ['}', '}'])) = '{' :: (('{' :: (x ++ ['}'])) ++ ['}']) by simp]
    rw [pyStrip_wrap '{' '}' ('{' :: (x ++ ['}'])) (by decide) (by decide)]
    have h1 : stripCurlyWrap ('{' :: (('{' :: (x ++ ['}'])) ++ ['}'])) = x := by
      unfold stripCurlyWrap
      have ha : (['{', '{'] : List Char).isPrefixOf
          ('{' :: (('{' :: (x ++ ['}'])) ++ ['}'])) = true := by
        simp [List.isPrefixOf]
      have hb : (['}', '}'] : List Char).isSuffixOf
          ('{' :: (('{' :: (x ++ ['}'])) ++ ['}'])) = true := by
        rw [List.isSuffixOf]
        simp [List.isPrefixOf]
      rw [ha, hb]
      simp only [Bool.and_self, if_true]
      rw [show ('{' :: (('{' :: (x ++ ['}'])) ++ ['}'])).drop 2 = (x ++ ['}']) ++ ['}'] by simp]
      rw [List.dropLast_concat, List.dropLast_concat]
      exact hs
    rw [h1, hbrackX]
  · unfold normalizeEditKey
    rw [show ('{' :: '{' :: (('[' :: (x ++ [']'])) ++ ['}', '}'])) =
        '{' :: (('{' :: (('[' :: (x ++ [']'])) ++ ['}'])) ++ ['}']) by simp]
    rw [pyStrip_wrap '{' '}' ('{' :: (('[' :: (x ++ [']'])) ++ ['}'])) (by decide) (by decide)]
    have h1 : stripCurlyWrap ('{' :: (('{' :: (('[' :: (x ++ [']'])) ++ ['}'])) ++ ['}'])) =
        '[' :: (x ++ [']']) := by
      unfold stripCurlyWrap
      have ha : (['{', '{'] : List Char).isPrefixOf
          ('{' :: (('{' :: (('[' :: (x ++ [']'])) ++ ['}'])) ++ ['}'])) = true := by
        simp [List.isPrefixOf]
      have hb : (['}', '}'] : List Char).isSuffixOf
          ('{' :: (('{' :: (('[' :: (x ++ [']'])) ++ ['}'])) ++ ['}'])) = true := by
        rw [List.isSuffixOf]
        simp [List.isPrefixOf]
      rw [ha, hb]
      simp only [Bool.and_self, if_true]
      rw [show ('{' :: (('{' :: (('[' :: (x ++ [']'])) ++ ['}'])) ++ ['}'])).drop 2 =
          (('[' :: (x ++ [']'])) ++ ['}']) ++ ['}'] by simp]
      rw [List.dropLast_concat, List.dropLast_concat]
      exact pyStrip_wrap '[' ']' x (by decide) (by decide)
    rw [h1, hbrackW]

/-- C3: when no run changed on the fast path and textual substitution
changes the assembled text, the engine rebuilds the paragraph as exactly one
run holding the fully substituted text; with no original runs the new run
has no special formatting, otherwise it carries the first original run's
bold/italic/underline/style, and carries font size, name and color only
when truthy (hence non-null) on that run. -/
theorem C3_fallback_rebuild (m : Mapping) (p : Paragraph)
    (hfp : (fastPath m p).2 = false)
    (hch : substAll m (parText p) ≠ parText p) :
    (processParagraph m p).runs.length = 1 ∧
    (p.runs = [] → processParagraph m p = ⟨[newRun (substAll m (parText p))]⟩) ∧
    (∀ r0 t, p.runs = r0 :: t →
      processParagraph m p = ⟨[carryRun r0 (substAll m (parText p))]⟩ ∧
      (carryRun r0 (substAll m (parText p))).text = substAll m (parText p) ∧
      (carryRun r0 (substAll m (parText p))).bold = r0.bold ∧
      (carryRun r0 (substAll m (parText p))).italic = r0.italic ∧
      (carryRun r0 (substAll m (parText p))).underline = r0.underline ∧
      (carryRun r0 (substAll m (parText p))).style = r0.style ∧
      ((carryRun r0 (substAll m (parText p))).fontSize ≠ none →
        (carryRun r0 (substAll m (parText p))).fontSize = r0.fontSize) ∧
      ((carryRun r0 (substAll m (parText p))).fontName ≠ none →
        (carryRun r0 (substAll m (parText p))).fontName = r0.fontName) ∧
      ((carryRun r0 (substAll m (parText p))).fontColor ≠ none →
        (carryRun r0 (substAll m (parText p))).fontColor = r0.fontColor)) := by
  have hpp : processParagraph m p = fallbackPar m p := by
    unfold processParagraph
    rw [hfp]
    simp
  have hfb : fallbackPar m p =
      (match p.runs with
       | [] => (⟨[newRun (substAll m (parText p))]⟩ : Paragraph)
       | r0 :: _ => ⟨[carryRun r0 (substAll m (parText p))]⟩) := by
    unfold fallbackPar
    rw [if_neg hch]
  refine ⟨?_, ?_, ?_⟩
  · rw [hpp, hfb]
    cases p.runs <;> simp [newRun, carryRun]
  · intro h
    rw [hpp, hfb, h]
  · intro r0 t h
    refine ⟨by rw [hpp, hfb, h], rfl, rfl, rfl, rfl, ?_, ?_, ?_, ?_⟩
    · unfold carryRun
      cases r0.style <;> simp
    · unfold carryRun
      dsimp only
      split <;> simp
    · unfold carryRun
      dsimp only
      split <;> simp
    · unfold carryRun
      dsimp only
      split <;> simp

theorem C3_fallback_rebuild_witness :
    (fastPath [(['K'], ['v'])]
        ⟨[{ text := ['['], bold := some true }, { text := ['K', ']'] }]⟩).2 = false ∧
    processParagraph [(['K'], ['v'])]
        ⟨[{ text := ['['], bold := some true }, { text := ['K', ']'] }]⟩ =
      ⟨[carryRun { text := ['['], bold := some true }
          (substAll [(['K'], ['v'])]
            (parText ⟨[{ text := ['['], bold := some true }, { text := ['K', ']'] }]⟩))]⟩ := by
  have h1 : (fastPath [(['K'], ['v'])]
      ⟨[{ text := ['['], bold := some true }, { text := ['K', ']'] }]⟩).2 = false := by
    decide
  have h2 : substAll [(['K'], ['v'])]
      (parText ⟨[{ text := ['['], bold := some true }, { text := ['K', ']'] }]⟩) ≠
      parText ⟨[{ text := ['['], bold := some true }, { text := ['K', ']'] }]⟩ := by
    simp [substAll, parText, replace4, strReplace, varC, varCS, varB, varBS,
      pyStrip, pyWs, List.isPrefixOf, List.dropWhile]
  exact ⟨h1, ((C3_fallback_rebuild _ _ h1 h2).2.2 _ _ rfl).1⟩

theorem C7_edit_normalizer_amended_witness :
    cleanStr ['X'] = true ∧ pyStrip ['X'] = ['X'] ∧
    normalizeEditKey ['{', '{', '[', 'X', ']', '}', '}'] = ['X'] :=
  ⟨by decide, by decide,
   (C7_edit_normalizer_amended ['X'] (by decide) (by decide)).2.2.2⟩

/-!
## C4: the scanner returns a sorted, deduplicated set of trimmed captures
-/

theorem ltStr_irrefl : ∀ a : List Char, ltStr a a = false := by
  intro a
  induction a with
  | nil => rfl
  | cons x s ih => simp [ltStr, ih]

theorem ltStr_trans : ∀ a b c : List Char,
    ltStr a b = true → ltStr b c = true → ltStr a c = true := by
  intro a
  induction a with
  | nil =>
    intro b c h1 h2
    cases b with
    | nil => exact absurd h1 (by simp [ltStr])
    | cons y t =>
      cases c with
      | nil => exact absurd h2 (by simp [ltStr])
      | cons z u => rfl
  | cons x s ih =>
    intro b c h1 h2
    cases b with
    | nil => exact absurd h1 (by simp [ltStr])
    | cons y t =>
      cases c with
      | nil => exact absurd h2 (by simp [ltStr])
      | cons z u =>
        rw [ltStr] at h1 h2 ⊢
        by_cases hxy : x < y
        · by_cases hyz : y < z
          · rw [if_pos (lt_trans hxy hyz)]
          · rw [if_neg hyz] at h2
            by_cases hzy : z < y
            · rw [if_pos hzy] at h2
              exact absurd h2 (by simp)
            · have : y = z := le_antisymm (not_lt.mp hzy) (not_lt.mp hyz)
              rw [if_pos (this ▸ hxy)]
        · rw [if_neg hxy] at h1
          by_cases hyx : y < x
          · rw [if_pos hyx] at h1
            exact absurd h1 (by simp)
          · have hxy' : x = y := le_antisymm (not_lt.mp hyx) (not_lt.mp hxy)
            rw [if_neg hyx] at h1
            by_cases hyz : y < z
            · rw [if_pos (hxy' ▸ hyz)]
            · rw [if_neg hyz] at h2
              by_cases hzy : z < y
              · rw [if_pos hzy] at h2
                exact absurd h2 (by simp)
              · have hyz' : y = z := le_antisymm (not_lt.mp hzy) (not_lt.mp hyz)
                rw [if_neg hzy] at h2
                rw [if_neg (hxy' ▸ hyz : ¬x < z), if_neg (hxy' ▸ hzy : ¬z < x)]
                exact ih t u h1 h2

theorem ltStr_total : ∀ a b : List Char,
    ltStr a b = false → a ≠ b → ltStr b a = true := by
  intro a
  induction a with
  | nil =>
    intro b h1 h2
    cases b with
    | nil => exact absurd rfl h2
    | cons y t => exact absurd h1 (by simp [ltStr])
  | cons x s ih =>
    intro b h1 h2
    cases b with
    | nil => rfl
    | cons y t =>
      rw [ltStr] at h1 ⊢
      by_cases hxy : x < y
      · rw [if_pos hxy] at h1
        exact absurd h1 (by simp)
      · rw [if_neg hxy] at h1
        by_cases hyx : y < x
        · rw [if_pos hyx]
        · rw [if_neg hyx] at h1
          have hxy' : x = y := le_antisymm (not_lt.mp hyx) (not_lt.mp hxy)
          subst hxy'
          rw [if_neg hxy, if_neg hxy]
          exact ih t h1 (by intro he; exact h2 (by rw [he]))

theorem mem_insSorted (x z : List Char) : ∀ l : List (List Char),
    z ∈ insSorted x l ↔ z = x ∨ z ∈ l := by
  intro l
  induction l with
  | nil => simp [insSorted]
  | cons y ys ih =>
    rw [insSorted]
    by_cases h1 : ltStr x y = true
    · rw [if_pos h1]
      simp only [List.mem_cons]
    · rw [if_neg h1]
      by_cases h2 : x = y
      · rw [if_pos h2]
        subst h2
        simp only [List.mem_cons]
        tauto
      · rw [if_neg h2]
        simp only [List.mem_cons, ih]
        tauto

theorem pairwise_insSorted (x : List Char) : ∀ l : List (List Char),
    l.Pairwise (fun a b => ltStr a b = true) →
    (insSorted x l).Pairwise (fun a b => ltStr a b = true) := by
  intro l
  induction l with
  | nil => intro _; simp [insSorted]
  | cons y ys ih =>
    intro h
    rw [List.pairwise_cons] at h
    obtain ⟨hy, hys⟩ := h
    rw [insSorted]
    by_cases h1 : ltStr x y = true
    · rw [if_pos h1]
      refine List.Pairwise.cons ?_ (List.Pairwise.cons hy hys)
      intro z hz
      rcases List.mem_cons.mp hz with rfl | hz
      · exact h1
      · exact ltStr_trans x y z h1 (hy z hz)
    · rw [if_neg h1]
      by_cases h2 : x = y
      · rw [if_pos h2]
        exact List.Pairwise.cons hy hys
      · rw [if_neg h2]
        refine List.Pairwise.cons ?_ (ih hys)
        intro z hz
        rcases (mem_insSorted x z ys).mp hz with heq | hz
        · subst heq
          exact ltStr_total z y (by simpa using h1) h2
        · exact hy z hz

theorem pairwise_foldl_insSorted : ∀ (l : List (List Char)) (acc : List (List Char)),
    acc.Pairwise (fun a b => ltStr a b = true) →
    (l.foldl (fun acc n => insSorted n acc) acc).Pairwise (fun a b => ltStr a b = true) := by
  intro l
  induction l with
  | nil => intro acc h; exact h
  | cons n ns ih =>
    intro acc h
    exact ih (insSorted n acc) (pairwise_insSorted n acc h)

theorem mem_foldl_insSorted : ∀ (l : List (List Char)) (acc : List (List Char)) (z : List Char),
    z ∈ l.foldl (fun acc n => insSorted n acc) acc ↔ z ∈ acc ∨ z ∈ l := by
  intro l
  induction l with
  | nil => simp
  | cons n ns ih =>
    intro acc z
    rw [List.foldl_cons, ih, mem_insSorted]
    simp
    tauto

theorem sortedNames_spec (l : List (List Char)) :
    (sortedNames l).Pairwise (fun a b => ltStr a b = true) ∧
    ∀ z, z ∈ sortedNames l ↔ z ∈ l := by
  constructor
  · exact pairwise_foldl_insSorted l [] (by simp)
  · intro z
    rw [sortedNames, mem_foldl_insSorted]
    simp

/-- C4: `extract_placeholders` returns a lexicographically sorted,
duplicate-free sequence, and a name is returned exactly when it is the
whitespace-trimmed capture of a `{{...}}` or `[...]` token matched against
the assembled (run-concatenated) text of some scanned paragraph — body
paragraphs, body table cells, and every section's header/footer paragraphs
and table cells.  Since matching runs over `parText` (the concatenation of
run texts), a token split across runs is still found. -/
theorem C4_extract_placeholders (d : Doc) :
    (extract_placeholders d).Pairwise (fun a b => ltStr a b = true) ∧
    (extract_placeholders d).Nodup ∧
    ∀ n, n ∈ extract_placeholders d ↔
      ∃ p ∈ docPars d, n ∈ (findall (parText p)).map pyStrip := by
  obtain ⟨hsort, hmem⟩ := sortedNames_spec (docNames d)
  refine ⟨hsort, ?_, ?_⟩
  · refine List.Pairwise.imp ?_ hsort
    intro a b hab
    intro he
    subst he
    rw [ltStr_irrefl] at hab
    exact absurd hab (by simp)
  · intro n
    rw [extract_placeholders] at *
    rw [hmem n, docNames]
    simp [parNames]

/-!
## C5: idempotence on fully substituted paragraphs
-/

theorem occursIn_nil_word (s : List Char) : occursIn [] s = true := by
  cases s with
  | nil => rfl
  | cons c t => simp [occursIn, List.isPrefixOf]

theorem isPrefixOf_append_of (w : List Char) : ∀ (t B : List Char),
    w.isPrefixOf t = true → w.isPrefixOf (t ++ B) = true := by
  induction w with
  | nil => intro t B _; simp [List.isPrefixOf]
  | cons a w' ih =>
    intro t B h
    cases t with
    | nil => simp [List.isPrefixOf] at h
    | cons c t' =>
      simp only [List.isPrefixOf, Bool.and_eq_true] at h ⊢
      exact ⟨h.1, ih t' B h.2⟩

theorem occursIn_append_right (w : List Char) : ∀ (t B : List Char),
    occursIn w t = true → occursIn w (t ++ B) = true := by
  intro t
  induction t with
  | nil =>
    intro B h
    simp [occursIn] at h
    rw [h]
    exact occursIn_nil_word B
  | cons c t' ih =>
    intro B h
    simp only [occursIn, Bool.or_eq_true] at h ⊢
    rcases h with h | h
    · exact Or.inl (isPrefixOf_append_of w (c :: t') B h)
    · exact Or.inr (ih B h)

theorem occursIn_append_left (w : List Char) : ∀ (A t : List Char),
    occursIn w t = true → occursIn w (A ++ t) = true := by
  intro A
  induction A with
  | nil => intro t h; exact h
  | cons a A' ih =>
    intro t h
    simp only [List.cons_append, occursIn, Bool.or_eq_true]
    exact Or.inr (ih t h)

theorem strReplace_of_not_occurs (w v : List Char) : ∀ s : List Char,
    occursIn w s = false → strReplace w v s = s := by
  intro s
  induction s with
  | nil => intro _; simp [strReplace]
  | cons c t ih =>
    intro h
    simp only [occursIn, Bool.or_eq_false_iff] at h
    rw [strReplace]
    rw [if_neg (by
      intro hc
      rw [hc.2] at h
      exact absurd h.1 (by simp))]
    rw [ih h.2]

theorem replace4_of_not_hit (k v s : List Char)
    (h : ∀ w ∈ variantsOf k, occursIn w s = false) : replace4 k v s = s := by
  unfold replace4
  rw [strReplace_of_not_occurs _ _ _ (h _ (by simp [variantsOf]))]
  rw [strReplace_of_not_occurs _ _ _ (h _ (by simp [variantsOf]))]
  rw [strReplace_of_not_occurs _ _ _ (h _ (by simp [variantsOf]))]
  rw [strReplace_of_not_occurs _ _ _ (h _ (by simp [variantsOf]))]

theorem runHit_false_of_not_occurs (k t : List Char)
    (h : ∀ w ∈ variantsOf k, occursIn w t = false) : runHit k t = false := by
  unfold runHit
  rw [h _ (by simp [variantsOf]), h _ (by simp [variantsOf]),
    h _ (by simp [variantsOf]), h _ (by simp [variantsOf])]
  rfl

theorem fastPathText_of_no_hit : ∀ (m : Mapping) (t : List Char) (c : Bool),
    (∀ kv ∈ m, runHit (pyStrip kv.1) t = false) → fastPathText m t c = (t, c) := by
  intro m
  induction m with
  | nil => intro t c _; rfl
  | cons kv m' ih =>
    intro t c h
    rw [fastPathText]
    rw [h kv (by simp)]
    simp only [Bool.false_eq_true, if_false]
    exact ih t c (fun kv' hkv' => h kv' (by simp [hkv']))

theorem substAll_of_not_occurs : ∀ (m : Mapping) (s : List Char),
    (∀ kv ∈ m, ∀ w ∈ variantsOf (pyStrip kv.1), occursIn w s = false) →
    substAll m s = s := by
  intro m
  induction m with
  | nil => intro s _; rfl
  | cons kv m' ih =>
    intro s h
    rw [substAll, List.foldl_cons]
    rw [replace4_of_not_hit _ _ _ (h kv (by simp))]
    exact ih s (fun kv' hkv' => h kv' (by simp [hkv']))

/-- A run's text is a factor of the paragraph's assembled text. -/
theorem run_text_factor (p : Paragraph) (r : Run) (hr : r ∈ p.runs) :
    ∃ A B, parText p = A ++ (r.text ++ B) := by
  obtain ⟨l1, l2, hsplit⟩ := List.append_of_mem hr
  refine ⟨(l1.map Run.text).flatten, (l2.map Run.text).flatten, ?_⟩
  rw [parText, hsplit]
  simp

theorem fastPath_of_clean (m : Mapping) (p : Paragraph)
    (h : ∀ kv ∈ m, ∀ w ∈ variantsOf (pyStrip kv.1), occursIn w (parText p) = false) :
    fastPath m p = (p, false) := by
  have hrun : ∀ r ∈ p.runs, fastPathRun m r = (r, false) := by
    intro r hr
    have htext : ∀ kv ∈ m, ∀ w ∈ variantsOf (pyStrip kv.1), occursIn w r.text = false := by
      intro kv hkv w hw
      rcases Bool.eq_false_or_eq_true (occursIn w r.text) with h' | h'
      · obtain ⟨A, B, hAB⟩ := run_text_factor p r hr
        have : occursIn w (parText p) = true := by
          rw [hAB]
          exact occursIn_append_left w A _ (occursIn_append_right w r.text B h')
        rw [h kv hkv w hw] at this
        exact absurd this (by simp)
      · exact h'
    unfold fastPathRun
    rw [fastPathText_of_no_hit m r.text false
      (fun kv hkv => runHit_false_of_not_occurs _ _ (htext kv hkv))]
    simp
  unfold fastPath
  have hmap : p.runs.map (fastPathRun m) = p.runs.map (fun r => (r, false)) := by
    apply List.map_congr_left
    intro r hr
    exact hrun r hr
  rw [hmap]
  show ({ runs := List.map Prod.fst (List.map (fun r => (r, false)) p.runs) },
      (List.map (fun r => (r, false)) p.runs).any Prod.snd) = (p, false)
  simp [Function.comp_def, List.any_map, List.map_map]

theorem cellPar_map (m : Mapping) (cs : List Cell) :
    (cs.map (fun c => Cell.mk (c.paragraphs.map (processParagraph m)))).flatMap
        Cell.paragraphs =
      (cs.flatMap Cell.paragraphs).map (processParagraph m) := by
  rw [List.flatMap_map, List.map_flatMap]

theorem tablePars_map (m : Mapping) (t : Table) :
    tablePars ⟨t.rows.map (fun r => ⟨r.cells.map (fun c =>
        ⟨c.paragraphs.map (processParagraph m)⟩)⟩)⟩ =
      (tablePars t).map (processParagraph m) := by
  unfold tablePars
  dsimp only
  rw [List.flatMap_map, List.map_flatMap]
  simp only [cellPar_map]

theorem hfPars_map (m : Mapping) (ps : List Paragraph) (ts : List Table) :
    hfPars ⟨ps.map (processParagraph m), ts.map (fun t => ⟨t.rows.map (fun r =>
        ⟨r.cells.map (fun c => ⟨c.paragraphs.map (processParagraph m)⟩)⟩)⟩)⟩ =
      (hfPars ⟨ps, ts⟩).map (processParagraph m) := by
  unfold hfPars
  dsimp only
  rw [List.flatMap_map, List.map_append, List.map_flatMap]
  simp only [tablePars_map]

/-- The structural engine acts paragraph-wise over the whole visit order. -/
theorem docPars_fill (m : Mapping) (d : Doc) :
    docPars (fill_docx_template m d) = (docPars d).map (processParagraph m) := by
  unfold fill_docx_template docPars
  cases hs : d.sections with
  | none =>
    dsimp only [Option.map_none']
    rw [List.flatMap_map]
    simp only [tablePars_map]
    rw [List.map_append, List.map_append, List.map_flatMap]
    simp
  | some ss =>
    dsimp only [Option.map_some']
    rw [List.flatMap_map, List.flatMap_map]
    simp only [tablePars_map]
    rw [List.map_append, List.map_append, List.map_flatMap, List.map_flatMap]
    have hsect : ∀ sec : Sect,
        sectPars ⟨⟨sec.header.paragraphs.map (processParagraph m),
            sec.header.tables.map (fun t => ⟨t.rows.map (fun r => ⟨r.cells.map (fun c =>
              ⟨c.paragraphs.map (processParagraph m)⟩)⟩)⟩)⟩,
          ⟨sec.footer.paragraphs.map (processParagraph m),
            sec.footer.tables.map (fun t => ⟨t.rows.map (fun r => ⟨r.cells.map (fun c =>
              ⟨c.paragraphs.map (processParagraph m)⟩)⟩)⟩)⟩⟩ =
        (sectPars sec).map (processParagraph m) := by
      intro sec
      unfold sectPars
      dsimp only
      rw [List.map_append]
      rw [show sec.header = ⟨sec.header.paragraphs, sec.header.tables⟩ from rfl,
        show sec.footer = ⟨sec.footer.paragraphs, sec.footer.tables⟩ from rfl]
      rw [hfPars_map, hfPars_map]
    simp only [hsect]

/-- C5: the structural engine is paragraph-wise (first conjunct), and on any
paragraph of the already-filled document in which no token variant of any
mapped key remains, a second application of the engine with the same mapping
changes nothing. -/
theorem C5_idempotent_on_clean (d : Doc) (m : Mapping) :
    docPars (fill_docx_template m d) = (docPars d).map (processParagraph m) ∧
    ∀ q ∈ docPars (fill_docx_template m d),
      (∀ kv ∈ m, ∀ w ∈ variantsOf (pyStrip kv.1), occursIn w (parText q) = false) →
      processParagraph m q = q := by
  constructor
  · exact docPars_fill m d
  · intro q _ h
    unfold processParagraph
    rw [fastPath_of_clean m q h]
    simp only [Bool.false_eq_true, if_false]
    unfold fallbackPar
    rw [substAll_of_not_occurs m (parText q) h]
    simp

theorem C5_idempotent_on_clean_witness :
    processParagraph [(['K'], ['v'])] ⟨[{ text := ['v'] }]⟩ = ⟨[{ text := ['v'] }]⟩ := by
  have hfill : fill_docx_template [(['K'], ['v'])] ⟨[⟨[{ text := ['[', 'K', ']'] }]⟩], [], some []⟩ =
      ⟨[⟨[{ text := ['v'] }]⟩], [], some []⟩ := by
    simp [fill_docx_template, processParagraph, fastPath, fastPathRun, fastPathText,
      runHit, occursIn, replace4, strReplace, varC, varCS, varB, varBS, pyStrip, pyWs,
      List.isPrefixOf, List.dropWhile]
  refine (C5_idempotent_on_clean ⟨[⟨[{ text := ['[', 'K', ']'] }]⟩], [], some []⟩
    [(['K'], ['v'])]).2 ⟨[{ text := ['v'] }]⟩ ?_ ?_
  · rw [hfill]
    simp [docPars]
  · decide

/-!
## C6: frame effects of the raw-package pass
-/

theorem mapM_ok_forall2 {α β : Type} (f : α → Except Unit β) :
    ∀ (l : List α) (out : List β), l.mapM f = .ok out →
    List.Forall₂ (fun e e' => f e = .ok e') l out := by
  intro l
  induction l with
  | nil =>
    intro out h
    simp only [List.mapM_nil, pure] at h
    injection h with h'
    subst h'
    exact List.Forall₂.nil
  | cons a l' ih =>
    intro out h
    rw [List.mapM_cons] at h
    cases hfa : f a with
    | error e => rw [hfa] at h; simp [Bind.bind, Except.bind] at h
    | ok x =>
      rw [hfa] at h
      cases hl : l'.mapM f with
      | error e =>
        rw [hl] at h
        simp [Bind.bind, Except.bind] at h
      | ok xs =>
        rw [hl] at h
        simp only [Bind.bind, Except.bind, pure] at h
        injection h with h'
        subst h'
        exact List.Forall₂.cons hfa (ih xs hl)

/-- C6: when the raw pass succeeds, the output archive has exactly the input
entries in the input order; every entry whose path does not start with
`word/` or does not end with `.xml`, and every entry that does not decode as
text, is copied through byte-for-byte unchanged; each remaining entry keeps
its name and has its text rewritten by, for each mapped field in mapping
order, the whitespace-tolerant curly-brace substitution followed by the
whitespace-tolerant bracket substitution. -/
theorem C6_raw_pass_frame (m : Mapping) (a out : Archive)
    (h : xml_replace_in_docx_bytes m a = .ok out) :
    out.length = a.length ∧
    List.Forall₂ (fun e e' =>
      e'.name = e.name ∧ e'.isText = e.isText ∧
      ((eligibleEntry e = false ∨ e.isText = false) → e' = e) ∧
      (eligibleEntry e = true → e.isText = true →
        xmlSubstText m e.data = .ok e'.data)) a out := by
  have h2 := mapM_ok_forall2 (rawEntry m) a out h
  constructor
  · exact (List.Forall₂.length_eq h2).symm
  · refine List.Forall₂.imp ?_ h2
    intro e e' he
    unfold rawEntry at he
    by_cases helig : eligibleEntry e = true
    · rw [if_pos helig] at he
      by_cases htext : e.isText = true
      · rw [if_pos htext] at he
        cases hsub : xmlSubstText m e.data with
        | error err => rw [hsub] at he; simp [Except.map] at he
        | ok t =>
          rw [hsub] at he
          simp only [Except.map] at he
          injection he with he'
          subst he'
          refine ⟨rfl, rfl, ?_, ?_⟩
          · intro hcase
            rcases hcase with hc | hc
            · rw [helig] at hc; exact absurd hc (by simp)
            · rw [htext] at hc; exact absurd hc (by simp)
          · intro _ _
            rfl
      · rw [if_neg htext] at he
        simp only [pure] at he
        injection he with he'
        subst he'
        exact ⟨rfl, rfl, fun _ => rfl, fun _ ht => absurd ht htext⟩
    · rw [if_neg helig] at he
      simp only [pure] at he
      injection he with he'
      subst he'
      refine ⟨rfl, rfl, fun _ => rfl, fun helig2 _ => ?_⟩
      rw [helig2] at helig
      exact absurd rfl helig

theorem C6_raw_pass_frame_witness :
    xml_replace_in_docx_bytes [(['K'], ['v'])]
        [⟨("word/document.xml").toList, ('a' :: (varBS ['K'] ++ ['b'])), true⟩,
         ⟨("word/media/image1.png").toList, ['\x00', '{'], false⟩,
         ⟨("docProps/core.xml").toList, varB ['K'], true⟩] =
      .ok [⟨("word/document.xml").toList, ['a', 'v', 'b'], true⟩,
           ⟨("word/media/image1.png").toList, ['\x00', '{'], false⟩,
           ⟨("docProps/core.xml").toList, varB ['K'], true⟩] ∧
    ([⟨("word/document.xml").toList, ['a', 'v', 'b'], true⟩,
      ⟨("word/media/image1.png").toList, ['\x00', '{'], false⟩,
      ⟨("docProps/core.xml").toList, varB ['K'], true⟩] : Archive).length =
      ([⟨("word/document.xml").toList, ('a' :: (varBS ['K'] ++ ['b'])), true⟩,
        ⟨("word/media/image1.png").toList, ['\x00', '{'], false⟩,
        ⟨("docProps/core.xml").toList, varB ['K'], true⟩] : Archive).length := by
  have hx : xml_replace_in_docx_bytes [(['K'], ['v'])]
      [⟨("word/document.xml").toList, ('a' :: (varBS ['K'] ++ ['b'])), true⟩,
       ⟨("word/media/image1.png").toList, ['\x00', '{'], false⟩,
       ⟨("docProps/core.xml").toList, varB ['K'], true⟩] =
      .ok [⟨("word/document.xml").toList, ['a', 'v', 'b'], true⟩,
           ⟨("word/media/image1.png").toList, ['\x00', '{'], false⟩,
           ⟨("docProps/core.xml").toList, varB ['K'], true⟩] := by
    rfl
  exact ⟨hx, (C6_raw_pass_frame [(['K'], ['v'])] _ _ hx).1 ▸ rfl⟩

/-!
## Segmentation theory: occurrences of token variants in well-segmented text
align exactly with the token segments
-/

theorem clean_mem_ne (x : List Char) (h : cleanStr x = true) (c : Char) (hc : c ∈ x)
    (d : Char) (hd : isDelim d = true) : (d == c) = false := by
  have hcl : isDelim c = false := by
    simp [cleanStr] at h
    exact h c hc
  rcases Bool.eq_false_or_eq_true (d == c) with h' | h'
  · rw [beq_iff_eq] at h'
    subst h'
    rw [hd] at hcl
    exact absurd hcl (by simp)
  · exact h'

theorem goodKey_parts (k : List Char) (h : goodKey k = true) :
    k ≠ [] ∧ cleanStr k = true ∧ (∀ c t, k = c :: t → pyWs c = false) := by
  cases k with
  | nil => simp [goodKey] at h
  | cons c t =>
    rw [goodKey] at h
    simp only [Bool.and_eq_true, Bool.not_eq_true'] at h
    refine ⟨by simp, h.1.2, ?_⟩
    intro c' t' he
    injection he with h1 _
    subst h1
    exact h.1.1

theorem goodKey_head_ne_space (k : List Char) (h : goodKey k = true) :
    ∀ c t, k = c :: t → (c == ' ') = false := by
  intro c t he
  have := (goodKey_parts k h).2.2 c t he
  rcases Bool.eq_false_or_eq_true (c == ' ') with h' | h'
  · rw [beq_iff_eq] at h'
    subst h'
    simp [pyWs] at this
  · exact h'

theorem close_delim (d : Char) : ∀ (k k' r1 r2 : List Char),
    (∀ c ∈ k, (d == c) = false) → (∀ c ∈ k', (d == c) = false) →
    (k' ++ d :: r1).isPrefixOf (k ++ d :: r2) = true → k' = k := by
  intro k
  induction k with
  | nil =>
    intro k' r1 r2 _ hk' hp
    cases k' with
    | nil => rfl
    | cons c t =>
      simp only [List.nil_append, List.cons_append, List.isPrefixOf,
        Bool.and_eq_true] at hp
      have h1 : c = d := beq_iff_eq.mp hp.1
      subst h1
      have := hk' c (by simp)
      rw [beq_self_eq_true] at this
      exact absurd this (by simp)
  | cons a k2 ih =>
    intro k' r1 r2 hk hk' hp
    cases k' with
    | nil =>
      simp only [List.nil_append, List.cons_append, List.isPrefixOf,
        Bool.and_eq_true] at hp
      have := hk a (by simp)
      rw [hp.1] at this
      exact absurd this (by simp)
    | cons c t =>
      simp only [List.cons_append, List.isPrefixOf, Bool.and_eq_true] at hp
      have hca : c = a := beq_iff_eq.mp hp.1
      have ht : t = k2 := ih t r1 r2 (fun x hx => hk x (by simp [hx]))
        (fun x hx => hk' x (by simp [hx])) hp.2
      rw [hca, ht]

theorem close_space_delim (d : Char) (hd : (d == ' ') = false) :
    ∀ (k k' r1 r2 : List Char),
    (∀ c ∈ k, (d == c) = false) → (∀ c ∈ k', (d == c) = false) →
    (k' ++ ' ' :: d :: r1).isPrefixOf (k ++ ' ' :: d :: r2) = true → k' = k := by
  intro k
  induction k with
  | nil =>
    intro k' r1 r2 _ hk' hp
    cases k' with
    | nil => rfl
    | cons c t =>
      simp only [List.nil_append, List.cons_append, List.isPrefixOf,
        Bool.and_eq_true] at hp
      have h1 : c = ' ' := beq_iff_eq.mp hp.1
      subst h1
      cases t with
      | nil =>
        simp only [List.nil_append, List.isPrefixOf, Bool.and_eq_true] at hp
        have h2 : (' ' : Char) = d := beq_iff_eq.mp hp.2.1
        rw [← h2] at hd
        rw [beq_self_eq_true] at hd
        exact absurd hd (by simp)
      | cons e t2 =>
        simp only [List.cons_append, List.isPrefixOf, Bool.and_eq_true] at hp
        have h2 : e = d := beq_iff_eq.mp hp.2.1
        subst h2
        have := hk' e (by simp)
        rw [beq_self_eq_true] at this
        exact absurd this (by simp)
  | cons a k2 ih =>
    intro k' r1 r2 hk hk' hp
    cases k' with
    | nil =>
      simp only [List.nil_append, List.cons_append, List.isPrefixOf,
        Bool.and_eq_true] at hp
      have h1 : (' ' : Char) = a := beq_iff_eq.mp hp.1
      subst h1
      cases k2 with
      | nil =>
        simp only [List.nil_append, List.isPrefixOf, Bool.and_eq_true] at hp
        have h2 : d = ' ' := beq_iff_eq.mp hp.2.1
        rw [h2] at hd
        rw [beq_self_eq_true] at hd
        exact absurd hd (by simp)
      | cons e t2 =>
        simp only [List.cons_append, List.isPrefixOf, Bool.and_eq_true] at hp
        have h2 : d = e := beq_iff_eq.mp hp.2.1
        have := hk e (by simp)
        rw [← h2] at this
        rw [beq_self_eq_true] at this
        exact absurd this (by simp)
    | cons c t =>
      simp only [List.cons_append, List.isPrefixOf, Bool.and_eq_true] at hp
      have hca : c = a := beq_iff_eq.mp hp.1
      have ht : t = k2 := ih t r1 r2 (fun x hx => hk x (by simp [hx]))
        (fun x hx => hk' x (by simp [hx])) hp.2
      rw [hca, ht]

theorem no_head_match (d0 : Char) (w' : List Char) :
    ∀ (u rest : List Char), (∀ c ∈ u, (d0 == c) = false) →
    ∀ j < u.length, (d0 :: w').isPrefixOf (List.drop j (u ++ rest)) = false := by
  intro u
  induction u with
  | nil => intro rest _ j hj; simp at hj
  | cons a u2 ih =>
    intro rest hu j hj
    cases j with
    | zero =>
      simp only [List.cons_append, List.drop_zero, List.isPrefixOf]
      rw [hu a (by simp)]
      simp
    | succ j' =>
      simp only [List.cons_append, List.drop_succ_cons]
      exact ih rest (fun c hc => hu c (by simp [hc])) j' (by simpa using hj)

theorem beq_symm_false (a b : Char) (h : (a == b) = false) : (b == a) = false := by
  rcases Bool.eq_false_or_eq_true (b == a) with h' | h'
  · rw [beq_iff_eq] at h'
    subst h'
    rw [beq_self_eq_true] at h
    exact absurd h (by simp)
  · exact h'

theorem goodKey_cons (k : List Char) (h : goodKey k = true) :
    ∃ c t, k = c :: t ∧ (c == ' ') = false := by
  cases k with
  | nil => simp [goodKey] at h
  | cons c t => exact ⟨c, t, rfl, goodKey_head_ne_space (c :: t) h c t rfl⟩

/-- A token variant of one well-formed key can start at the beginning of a
different token segment's text only if the two renderings are the same
string. -/
theorem no_occ_at_zero (va vb : VKind) (k' k : List Char)
    (hk' : goodKey k' = true) (hk : goodKey k = true)
    (hne : renderV vb k ≠ renderV va k') (rest : List Char) :
    (renderV va k').isPrefixOf (renderV vb k ++ rest) = false := by
  have hkC := (goodKey_parts k hk).2.1
  have hk'C := (goodKey_parts k' hk').2.1
  have hkne : ∀ d : Char, isDelim d = true → ∀ c ∈ k, (d == c) = false :=
    fun d hd c hc => clean_mem_ne k hkC c hc d hd
  have hk'ne : ∀ d : Char, isDelim d = true → ∀ c ∈ k', (d == c) = false :=
    fun d hd c hc => clean_mem_ne k' hk'C c hc d hd
  obtain ⟨a, kt, hkeq, hasp⟩ := goodKey_cons k hk
  obtain ⟨c, t, hk'eq, hcsp⟩ := goodKey_cons k' hk'
  rcases Bool.eq_false_or_eq_true
      ((renderV va k').isPrefixOf (renderV vb k ++ rest)) with h | h
  · exfalso
    cases va <;> cases vb
    case c.c =>
      simp only [renderV, varC, List.cons_append, List.append_eq, List.isPrefixOf,
        beq_self_eq_true, Bool.true_and] at h
      rw [List.append_assoc] at h
      simp only [List.cons_append, List.nil_append] at h
      have := close_delim '}' k k' ['}'] ('}' :: rest)
        (hkne '}' (by decide)) (hk'ne '}' (by decide)) h
      subst this
      exact hne rfl
    case c.cs =>
      rw [hk'eq] at h
      simp only [renderV, varC, varCS, List.cons_append, List.append_eq,
        List.isPrefixOf, beq_self_eq_true, Bool.true_and] at h
      rw [hcsp] at h
      simp at h
    case c.b =>
      simp [renderV, varC, varB, List.isPrefixOf] at h
    case c.bs =>
      simp [renderV, varC, varBS, List.isPrefixOf] at h
    case cs.c =>
      rw [hkeq] at h
      simp only [renderV, varC, varCS, List.cons_append, List.append_eq,
        List.isPrefixOf, beq_self_eq_true, Bool.true_and] at h
      rw [beq_symm_false a ' ' hasp] at h
      simp at h
    case cs.cs =>
      simp only [renderV, varCS, List.cons_append, List.append_eq, List.isPrefixOf,
        beq_self_eq_true, Bool.true_and] at h
      rw [List.append_assoc] at h
      simp only [List.cons_append, List.nil_append] at h
      have := close_space_delim '}' (by decide) k k' ['}'] ('}' :: rest)
        (hkne '}' (by decide)) (hk'ne '}' (by decide)) h
      subst this
      exact hne rfl
    case cs.b =>
      simp [renderV, varCS, varB, List.isPrefixOf] at h
    case cs.bs =>
      simp [renderV, varCS, varBS, List.isPrefixOf] at h
    case b.c =>
      simp [renderV, varC, varB, List.isPrefixOf] at h
    case b.cs =>
      simp [renderV, varCS, varB, List.isPrefixOf] at h
    case b.b =>
      simp only [renderV, varB, List.cons_append, List.append_eq, List.isPrefixOf,
        beq_self_eq_true, Bool.true_and] at h
      rw [List.append_assoc] at h
      simp only [List.cons_append, List.nil_append] at h
      have := close_delim ']' k k' [] rest
        (hkne ']' (by decide)) (hk'ne ']' (by decide)) h
      subst this
      exact hne rfl
    case b.bs =>
      rw [hk'eq] at h
      simp only [renderV, varB, varBS, List.cons_append, List.append_eq,
        List.isPrefixOf, beq_self_eq_true, Bool.true_and] at h
      rw [hcsp] at h
      simp at h
    case bs.c =>
      simp [renderV, varC, varBS, List.isPrefixOf] at h
    case bs.cs =>
      simp [renderV, varCS, varBS, List.isPrefixOf] at h
    case bs.b =>
      rw [hkeq] at h
      simp only [renderV, varB, varBS, List.cons_append, List.append_eq,
        List.isPrefixOf, beq_self_eq_true, Bool.true_and] at h
      rw [beq_symm_false a ' ' hasp] at h
      simp at h
    case bs.bs =>
      simp only [renderV, varBS, List.cons_append, List.append_eq, List.isPrefixOf,
        beq_self_eq_true, Bool.true_and] at h
      rw [List.append_assoc] at h
      simp only [List.cons_append, List.nil_append] at h
      have := close_space_delim ']' (by decide) k k' [] rest
        (hkne ']' (by decide)) (hk'ne ']' (by decide)) h
      subst this
      exact hne rfl
  · exact h

/-- No token variant of a well-formed key can start strictly inside a
well-formed segment's text, nor at offset 0 of a segment whose text differs
from the variant. -/
theorem no_occ_inside_seg (va : VKind) (k' : List Char) (hk' : goodKey k' = true)
    (seg : Seg) (hseg : goodSeg seg = true) (hne : segStr seg ≠ renderV va k')
    (rest : List Char) :
    ∀ i < (segStr seg).length,
      (renderV va k').isPrefixOf (List.drop i (segStr seg ++ rest)) = false := by
  cases seg with
  | lit l =>
    intro i hi
    have hl : cleanStr l = true := hseg
    cases va with
    | c =>
      exact no_head_match '{' ('{' :: (k' ++ ['}', '}'])) l rest
        (fun ch hc => clean_mem_ne l hl ch hc '{' (by decide)) i hi
    | cs =>
      exact no_head_match '{' ('{' :: ' ' :: (k' ++ [' ', '}', '}'])) l rest
        (fun ch hc => clean_mem_ne l hl ch hc '{' (by decide)) i hi
    | b =>
      exact no_head_match '[' (k' ++ [']']) l rest
        (fun ch hc => clean_mem_ne l hl ch hc '[' (by decide)) i hi
    | bs =>
      exact no_head_match '[' (' ' :: (k' ++ [' ', ']'])) l rest
        (fun ch hc => clean_mem_ne l hl ch hc '[' (by decide)) i hi
  | tok vb k =>
    intro i hi
    have hkG : goodKey k = true := hseg
    have hkC := (goodKey_parts k hkG).2.1
    cases i with
    | zero =>
      rw [List.drop_zero]
      exact no_occ_at_zero va vb k' k hk' hkG hne rest
    | succ i0 =>
      cases vb with
      | b =>
        have hstep : List.drop (i0 + 1) (segStr (Seg.tok VKind.b k) ++ rest) =
            List.drop i0 ((k ++ [']']) ++ rest) := by
          simp [segStr, renderV, varB]
        have hlen : i0 < (k ++ [']']).length := by
          simp only [segStr, renderV, varB, List.length_cons, List.length_append,
            List.length_singleton] at hi ⊢
          omega
        have hu : ∀ ch ∈ k ++ [']'], ('{' == ch) = false ∧ ('[' == ch) = false := by
          intro ch hc
          rcases List.mem_append.mp hc with hck | hcr
          · exact ⟨clean_mem_ne k hkC ch hck '{' (by decide),
              clean_mem_ne k hkC ch hck '[' (by decide)⟩
          · simp at hcr
            subst hcr
            exact ⟨by decide, by decide⟩
        rw [hstep]
        cases va with
        | c =>
          exact no_head_match '{' ('{' :: (k' ++ ['}', '}'])) _ rest
            (fun ch hc => (hu ch hc).1) i0 hlen
        | cs =>
          exact no_head_match '{' ('{' :: ' ' :: (k' ++ [' ', '}', '}'])) _ rest
            (fun ch hc => (hu ch hc).1) i0 hlen
        | b =>
          exact no_head_match '[' (k' ++ [']']) _ rest
            (fun ch hc => (hu ch hc).2) i0 hlen
        | bs =>
          exact no_head_match '[' (' ' :: (k' ++ [' ', ']'])) _ rest
            (fun ch hc => (hu ch hc).2) i0 hlen
      | bs =>
        have hstep : List.drop (i0 + 1) (segStr (Seg.tok VKind.bs k) ++ rest) =
            List.drop i0 ((' ' :: (k ++ [' ', ']'])) ++ rest) := by
          simp [segStr, renderV, varBS]
        have hlen : i0 < (' ' :: (k ++ [' ', ']'])).length := by
          simp only [segStr, renderV, varBS, List.length_cons,
            List.length_append] at hi ⊢
          simp at hi ⊢
          omega
        have hu : ∀ ch ∈ ' ' :: (k ++ [' ', ']']),
            ('{' == ch) = false ∧ ('[' == ch) = false := by
          intro ch hc
          rcases List.mem_cons.mp hc with hcr | hc2
          · subst hcr
            exact ⟨by decide, by decide⟩
          · rcases List.mem_append.mp hc2 with hck | hcr
            · exact ⟨clean_mem_ne k hkC ch hck '{' (by decide),
                clean_mem_ne k hkC ch hck '[' (by decide)⟩
            · rcases List.mem_cons.mp hcr with hsp | hcl
              · subst hsp
                exact ⟨by decide, by decide⟩
              · simp at hcl
                subst hcl
                exact ⟨by decide, by decide⟩
        rw [hstep]
        cases va with
        | c =>
          exact no_head_match '{' ('{' :: (k' ++ ['}', '}'])) _ rest
            (fun ch hc => (hu ch hc).1) i0 hlen
        | cs =>
          exact no_head_match '{' ('{' :: ' ' :: (k' ++ [' ', '}', '}'])) _ rest
            (fun ch hc => (hu ch hc).1) i0 hlen
        | b =>
          exact no_head_match '[' (k' ++ [']']) _ rest
            (fun ch hc => (hu ch hc).2) i0 hlen
        | bs =>
          exact no_head_match '[' (' ' :: (k' ++ [' ', ']'])) _ rest
            (fun ch hc => (hu ch hc).2) i0 hlen
      | c =>
        cases i0 with
        | zero =>
          have hstep : List.drop 1 (segStr (Seg.tok VKind.c k) ++ rest) =
              '{' :: ((k ++ ['}', '}']) ++ rest) := by
            simp [segStr, renderV, varC]
          rw [hstep]
          obtain ⟨a, kt, hkeq, _⟩ := goodKey_cons k hkG
          have ha : ('{' == a) = false :=
            clean_mem_ne k hkC a (by rw [hkeq]; simp) '{' (by decide)
          cases va with
          | b => simp [renderV, varB, List.isPrefixOf]
          | bs => simp [renderV, varBS, List.isPrefixOf]
          | c =>
            rw [hkeq]
            simp only [renderV, varC, List.cons_append, List.append_eq,
              List.isPrefixOf, beq_self_eq_true, Bool.true_and]
            rw [ha]
            simp
          | cs =>
            rw [hkeq]
            simp only [renderV, varCS, List.cons_append, List.append_eq,
              List.isPrefixOf, beq_self_eq_true, Bool.true_and]
            rw [ha]
            simp
        | succ i1 =>
          have hstep : List.drop (i1 + 2) (segStr (Seg.tok VKind.c k) ++ rest) =
              List.drop i1 ((k ++ ['}', '}']) ++ rest) := by
            simp [segStr, renderV, varC]
          have hlen : i1 < (k ++ ['}', '}']).length := by
            simp only [segStr, renderV, varC, List.length_cons,
              List.length_append] at hi ⊢
            simp at hi ⊢
            omega
          have hu : ∀ ch ∈ k ++ ['}', '}'], ('{' == ch) = false ∧ ('[' == ch) = false := by
            intro ch hc
            rcases List.mem_append.mp hc with hck | hcr
            · exact ⟨clean_mem_ne k hkC ch hck '{' (by decide),
                clean_mem_ne k hkC ch hck '[' (by decide)⟩
            · rcases List.mem_cons.mp hcr with h1 | h2
              · subst h1
                exact ⟨by decide, by decide⟩
              · simp at h2
                subst h2
                exact ⟨by decide, by decide⟩
          rw [hstep]
          cases va with
          | c =>
            exact no_head_match '{' ('{' :: (k' ++ ['}', '}'])) _ rest
              (fun ch hc => (hu ch hc).1) i1 hlen
          | cs =>
            exact no_head_match '{' ('{' :: ' ' :: (k' ++ [' ', '}', '}'])) _ rest
              (fun ch hc => (hu ch hc).1) i1 hlen
          | b =>
            exact no_head_match '[' (k' ++ [']']) _ rest
              (fun ch hc => (hu ch hc).2) i1 hlen
          | bs =>
            exact no_head_match '[' (' ' :: (k' ++ [' ', ']'])) _ rest
              (fun ch hc => (hu ch hc).2) i1 hlen
      | cs =>
        cases i0 with
        | zero =>
          have hstep : List.drop 1 (segStr (Seg.tok VKind.cs k) ++ rest) =
              '{' :: ((' ' :: (k ++ [' ', '}', '}'])) ++ rest) := by
            simp [segStr, renderV, varCS]
          rw [hstep]
          cases va with
          | b => simp [renderV, varB, List.isPrefixOf]
          | bs => simp [renderV, varBS, List.isPrefixOf]
          | c =>
            simp only [renderV, varC, List.cons_append, List.append_eq,
              List.isPrefixOf, beq_self_eq_true, Bool.true_and]
            simp
          | cs =>
            simp only [renderV, varCS, List.cons_append, List.append_eq,
              List.isPrefixOf, beq_self_eq_true, Bool.true_and]
            simp
        | succ i1 =>
          have hstep : List.drop (i1 + 2) (segStr (Seg.tok VKind.cs k) ++ rest) =
              List.drop i1 ((' ' :: (k ++ [' ', '}', '}'])) ++ rest) := by
            simp [segStr, renderV, varCS]
          have hlen : i1 < (' ' :: (k ++ [' ', '}', '}'])).length := by
            simp only [segStr, renderV, varCS, List.length_cons,
              List.length_append] at hi ⊢
            simp at hi ⊢
            omega
          have hu : ∀ ch ∈ ' ' :: (k ++ [' ', '}', '}']),
              ('{' == ch) = false ∧ ('[' == ch) = false := by
            intro ch hc
            rcases List.mem_cons.mp hc with h0 | hc2
            · subst h0
              exact ⟨by decide, by decide⟩
            · rcases List.mem_append.mp hc2 with hck | hcr
              · exact ⟨clean_mem_ne k hkC ch hck '{' (by decide),
                  clean_mem_ne k hkC ch hck '[' (by decide)⟩
              · rcases List.mem_cons.mp hcr with h1 | h2
                · subst h1
                  exact ⟨by decide, by decide⟩
                · rcases List.mem_cons.mp h2 with h3 | h4
                  · subst h3
                    exact ⟨by decide, by decide⟩
                  · simp at h4
                    subst h4
                    exact ⟨by decide, by decide⟩
          rw [hstep]
          cases va with
          | c =>
            exact no_head_match '{' ('{' :: (k' ++ ['}', '}'])) _ rest
              (fun ch hc => (hu ch hc).1) i1 hlen
          | cs =>
            exact no_head_match '{' ('{' :: ' ' :: (k' ++ [' ', '}', '}'])) _ rest
              (fun ch hc => (hu ch hc).1) i1 hlen
          | b =>
            exact no_head_match '[' (k' ++ [']']) _ rest
              (fun ch hc => (hu ch hc).2) i1 hlen
          | bs =>
            exact no_head_match '[' (' ' :: (k' ++ [' ', ']'])) _ rest
              (fun ch hc => (hu ch hc).2) i1 hlen

theorem isPrefixOf_self (w : List Char) : w.isPrefixOf w = true := by
  induction w with
  | nil => rfl
  | cons c t ih => simp [List.isPrefixOf, ih]

theorem renderV_ne_nil (va : VKind) (k : List Char) : renderV va k ≠ [] := by
  cases va <;> simp [renderV, varC, varCS, varB, varBS]

theorem strReplace_append_no_start (w v : List Char) : ∀ (x y : List Char),
    (∀ i < x.length, w.isPrefixOf (List.drop i (x ++ y)) = false) →
    strReplace w v (x ++ y) = x ++ strReplace w v y := by
  intro x
  induction x with
  | nil => intro y _; simp
  | cons c x' ih =>
    intro y h
    have h0 := h 0 (by simp)
    simp only [List.drop_zero, List.cons_append] at h0
    rw [List.cons_append, strReplace]
    rw [if_neg (by
      intro hc
      rw [hc.2] at h0
      exact absurd h0 (by simp))]
    rw [ih y (fun i hi => by
      have := h (i + 1) (by simp; omega)
      simpa using this)]
    simp

theorem strReplace_match (w v : List Char) (hw : w ≠ []) (tail : List Char) :
    strReplace w v (w ++ tail) = v ++ strReplace w v tail := by
  cases w with
  | nil => exact absurd rfl hw
  | cons d0 w0 =>
    rw [List.cons_append, strReplace]
    rw [if_pos ⟨by simp, by
      rw [← List.cons_append]
      exact isPrefixOf_append_of (d0 :: w0) (d0 :: w0) tail (isPrefixOf_self _)⟩]
    simp only [List.length_cons, Nat.add_sub_cancel]
    rw [List.drop_left]

theorem strReplace_segs (va : VKind) (k' v : List Char) (hk' : goodKey k' = true) :
    ∀ segs : List Seg, (∀ s ∈ segs, goodSeg s = true) →
    strReplace (renderV va k') v (segsStr segs) =
      segsStr (segs.map (segRep (renderV va k') v)) := by
  intro segs
  induction segs with
  | nil => intro _; simp [segsStr, strReplace]
  | cons sg rest ih =>
    intro hgood
    have hgs : goodSeg sg = true := hgood sg (by simp)
    have hrest : ∀ s ∈ rest, goodSeg s = true := fun s hs => hgood s (by simp [hs])
    have hconcat : segsStr (sg :: rest) = segStr sg ++ segsStr rest := by
      simp [segsStr]
    by_cases heq : segStr sg = renderV va k'
    · have hmap : segRep (renderV va k') v sg = Seg.lit v := by
        cases sg with
        | lit l =>
          exfalso
          have hcl : cleanStr l = true := hgs
          rw [show segStr (Seg.lit l) = l from rfl] at heq
          rw [heq] at hcl
          cases va <;> simp [cleanStr, isDelim, renderV, varC, varCS, varB, varBS] at hcl
        | tok vb k =>
          rw [segRep]
          rw [if_pos (by rw [show renderV vb k = segStr (Seg.tok vb k) from rfl, heq])]
      rw [hconcat, heq]
      rw [strReplace_match _ v (renderV_ne_nil va k') _]
      rw [ih hrest]
      simp [segsStr, hmap, segStr]
    · rw [hconcat]
      rw [strReplace_append_no_start _ _ _ _
        (no_occ_inside_seg va k' hk' sg hgs heq (segsStr rest))]
      rw [ih hrest]
      have hmap : segRep (renderV va k') v sg = sg := by
        cases sg with
        | lit l => rfl
        | tok vb k =>
          rw [segRep]
          rw [if_neg (fun hc => heq (by
            rw [show segStr (Seg.tok vb k) = renderV vb k from rfl, hc]))]
      simp [segsStr, hmap]

theorem goodSeg_segRep (w v : List Char) (hv : cleanStr v = true) (s : Seg)
    (hs : goodSeg s = true) : goodSeg (segRep w v s) = true := by
  cases s with
  | lit l => exact hs
  | tok vb k =>
    rw [segRep]
    by_cases hc : renderV vb k = w
    · rw [if_pos hc]
      exact hv
    · rw [if_neg hc]
      exact hs

theorem pyStrip_id_of_goodKey (k : List Char) (h : goodKey k = true) :
    pyStrip k = k := by
  obtain ⟨c, t, hkeq, _⟩ := goodKey_cons k h
  subst hkeq
  rw [goodKey] at h
  simp only [Bool.and_eq_true, Bool.not_eq_true'] at h
  rw [pyStrip]
  rw [List.dropWhile_cons]
  rw [h.1.1]
  simp only [Bool.false_eq_true, if_false]
  cases hr : (c :: t).reverse with
  | nil => exact absurd (congrArg List.length hr) (by simp)
  | cons d rt =>
    have hlast : (c :: t).getLast? = some d := by
      rw [List.getLast?_eq_head?_reverse]
      rw [hr]
      rfl
    rw [hlast] at h
    have hd : pyWs d = false := by
      have := h.2
      simpa using this
    have hdrop : List.dropWhile pyWs (d :: rt) = d :: rt := by
      rw [List.dropWhile_cons, hd]
      simp
    rw [hdrop, ← hr, List.reverse_reverse]

theorem replace4_segs (k v : List Char) (hk : goodKey k = true)
    (hv : cleanStr v = true) :
    ∀ segs : List Seg, (∀ s ∈ segs, goodSeg s = true) →
    replace4 k v (segsStr segs) = segsStr (applyKeySegs k v segs) ∧
    (∀ s ∈ applyKeySegs k v segs, goodSeg s = true) := by
  intro segs hgood
  have g1 : ∀ s ∈ segs.map (segRep (renderV VKind.c k) v), goodSeg s = true := by
    intro s hs
    obtain ⟨s0, hs0, he⟩ := List.mem_map.mp hs
    exact he ▸ goodSeg_segRep _ v hv s0 (hgood s0 hs0)
  have g2 : ∀ s ∈ (segs.map (segRep (renderV VKind.c k) v)).map
      (segRep (renderV VKind.cs k) v), goodSeg s = true := by
    intro s hs
    obtain ⟨s0, hs0, he⟩ := List.mem_map.mp hs
    exact he ▸ goodSeg_segRep _ v hv s0 (g1 s0 hs0)
  have g3 : ∀ s ∈ ((segs.map (segRep (renderV VKind.c k) v)).map
      (segRep (renderV VKind.cs k) v)).map (segRep (renderV VKind.b k) v),
      goodSeg s = true := by
    intro s hs
    obtain ⟨s0, hs0, he⟩ := List.mem_map.mp hs
    exact he ▸ goodSeg_segRep _ v hv s0 (g2 s0 hs0)
  have g4 : ∀ s ∈ applyKeySegs k v segs, goodSeg s = true := by
    intro s hs
    obtain ⟨s0, hs0, he⟩ := List.mem_map.mp hs
    exact he ▸ goodSeg_segRep _ v hv s0 (g3 s0 hs0)
  refine ⟨?_, g4⟩
  rw [replace4]
  rw [show varC k = renderV VKind.c k from rfl,
    show varCS k = renderV VKind.cs k from rfl,
    show varB k = renderV VKind.b k from rfl,
    show varBS k = renderV VKind.bs k from rfl]
  rw [strReplace_segs VKind.c k v hk segs hgood]
  rw [strReplace_segs VKind.cs k v hk (segs.map (segRep (renderV VKind.c k) v)) g1]
  rw [strReplace_segs VKind.b k v hk ((segs.map (segRep (renderV VKind.c k) v)).map
    (segRep (renderV VKind.cs k) v)) g2]
  rw [strReplace_segs VKind.bs k v hk (((segs.map (segRep (renderV VKind.c k) v)).map
    (segRep (renderV VKind.cs k) v)).map (segRep (renderV VKind.b k) v)) g3]
  rfl

theorem substAll_segs (m : Mapping) :
    ∀ segs : List Seg, goodMapping m = true → (∀ s ∈ segs, goodSeg s = true) →
    substAll m (segsStr segs) = segsStr (applySegs m segs) ∧
    (∀ s ∈ applySegs m segs, goodSeg s = true) := by
  induction m with
  | nil => intro segs _ hgood; exact ⟨rfl, hgood⟩
  | cons kv m' ih =>
    intro segs hm hgood
    have hmm := hm
    rw [goodMapping, List.all_cons, Bool.and_eq_true] at hmm
    have hmkv : goodKey kv.1 = true ∧ cleanStr kv.2 = true := by
      have := hmm.1
      simp only [Bool.and_eq_true] at this
      exact this
    have hm' : goodMapping m' = true := hmm.2
    have hkey : goodKey (pyStrip kv.1) = true := by
      rw [pyStrip_id_of_goodKey kv.1 hmkv.1]
      exact hmkv.1
    obtain ⟨h4, g4⟩ := replace4_segs (pyStrip kv.1) kv.2 hkey hmkv.2 segs hgood
    have hstep : substAll (kv :: m') (segsStr segs) =
        substAll m' (replace4 (pyStrip kv.1) kv.2 (segsStr segs)) := by
      rw [substAll, substAll, List.foldl_cons]
    rw [hstep, h4]
    obtain ⟨hrec, grec⟩ := ih (applyKeySegs (pyStrip kv.1) kv.2 segs) hm' g4
    refine ⟨hrec, ?_⟩
    rw [show applySegs (kv :: m') segs =
      applySegs m' (applyKeySegs (pyStrip kv.1) kv.2 segs) from rfl]
    exact grec

theorem renderV_inj (va vb : VKind) (k k2 : List Char) (hk : goodKey k = true)
    (hk2 : goodKey k2 = true) (h : renderV va k = renderV vb k2) :
    va = vb ∧ k = k2 := by
  obtain ⟨a, kt, hkeq, hasp⟩ := goodKey_cons k hk
  obtain ⟨c, t, hk2eq, hcsp⟩ := goodKey_cons k2 hk2
  cases va <;> cases vb
  case c.c =>
    simp only [renderV, varC, List.cons.injEq, true_and] at h
    exact ⟨rfl, by
      have := List.append_inj_left' h rfl
      exact this⟩
  case cs.cs =>
    simp only [renderV, varCS, List.cons.injEq, true_and] at h
    exact ⟨rfl, List.append_inj_left' h rfl⟩
  case b.b =>
    simp only [renderV, varB, List.cons.injEq, true_and] at h
    exact ⟨rfl, List.append_inj_left' h rfl⟩
  case bs.bs =>
    simp only [renderV, varBS, List.cons.injEq, true_and] at h
    exact ⟨rfl, List.append_inj_left' h rfl⟩
  case c.cs =>
    exfalso
    rw [hkeq] at h
    simp only [renderV, varC, varCS, List.cons.injEq, true_and,
      List.cons_append] at h
    have h1 : a = ' ' := h.1
    rw [h1] at hasp
    rw [beq_self_eq_true] at hasp
    exact absurd hasp (by simp)
  case cs.c =>
    exfalso
    rw [hk2eq] at h
    simp only [renderV, varC, varCS, List.cons.injEq, true_and,
      List.cons_append] at h
    have h1 : (' ' : Char) = c := h.1
    rw [← h1] at hcsp
    rw [beq_self_eq_true] at hcsp
    exact absurd hcsp (by simp)
  case b.bs =>
    exfalso
    rw [hkeq] at h
    simp only [renderV, varB, varBS, List.cons.injEq, true_and,
      List.cons_append] at h
    have h1 : a = ' ' := h.1
    rw [h1] at hasp
    rw [beq_self_eq_true] at hasp
    exact absurd hasp (by simp)
  case bs.b =>
    exfalso
    rw [hk2eq] at h
    simp only [renderV, varB, varBS, List.cons.injEq, true_and,
      List.cons_append] at h
    have h1 : (' ' : Char) = c := h.1
    rw [← h1] at hcsp
    rw [beq_self_eq_true] at hcsp
    exact absurd hcsp (by simp)
  all_goals (exfalso; simp [renderV, varC, varCS, varB, varBS] at h)

theorem segsStr_append (l1 l2 : List Seg) :
    segsStr (l1 ++ l2) = segsStr l1 ++ segsStr l2 := by
  simp [segsStr]

theorem occursIn_here (w B : List Char) : occursIn w (w ++ B) = true := by
  cases w with
  | nil => exact occursIn_nil_word B
  | cons c w' =>
    rw [List.cons_append, occursIn]
    rw [← List.cons_append]
    rw [isPrefixOf_append_of (c :: w') (c :: w') B (isPrefixOf_self _)]
    simp

theorem tok_occurs (segs : List Seg) (vb : VKind) (k : List Char)
    (h : Seg.tok vb k ∈ segs) :
    occursIn (renderV vb k) (segsStr segs) = true := by
  obtain ⟨l1, l2, hsplit⟩ := List.append_of_mem h
  subst hsplit
  rw [segsStr_append]
  apply occursIn_append_left
  rw [show segsStr (Seg.tok vb k :: l2) = renderV vb k ++ segsStr l2 by
    simp [segsStr, segStr]]
  exact occursIn_here _ _

theorem applyKeySegs_eq_map (k v : List Char) (segs : List Seg) :
    applyKeySegs k v segs = segs.map (segRepKey k v) := by
  unfold applyKeySegs segRepKey
  rw [List.map_map, List.map_map, List.map_map]
  rfl

theorem segRepKey_lit (k v l : List Char) : segRepKey k v (Seg.lit l) = Seg.lit l := rfl

theorem segRepKey_tok_same (k v : List Char) (hk : goodKey k = true) (vb : VKind) :
    segRepKey k v (Seg.tok vb k) = Seg.lit v := by
  have hne : ∀ va vc : VKind, va ≠ vc → renderV va k ≠ renderV vc k :=
    fun va vc hv h => hv (renderV_inj va vc k k hk hk h).1
  cases vb with
  | c =>
    unfold segRepKey
    rw [show segRep (varC k) v (Seg.tok VKind.c k) = Seg.lit v by
      rw [segRep]; exact if_pos rfl]
    rfl
  | cs =>
    unfold segRepKey
    rw [show segRep (varC k) v (Seg.tok VKind.cs k) = Seg.tok VKind.cs k by
      rw [segRep]; exact if_neg (hne VKind.cs VKind.c (by decide))]
    rw [show segRep (varCS k) v (Seg.tok VKind.cs k) = Seg.lit v by
      rw [segRep]; exact if_pos rfl]
    rfl
  | b =>
    unfold segRepKey
    rw [show segRep (varC k) v (Seg.tok VKind.b k) = Seg.tok VKind.b k by
      rw [segRep]; exact if_neg (hne VKind.b VKind.c (by decide))]
    rw [show segRep (varCS k) v (Seg.tok VKind.b k) = Seg.tok VKind.b k by
      rw [segRep]; exact if_neg (hne VKind.b VKind.cs (by decide))]
    rw [show segRep (varB k) v (Seg.tok VKind.b k) = Seg.lit v by
      rw [segRep]; exact if_pos rfl]
    rfl
  | bs =>
    unfold segRepKey
    rw [show segRep (varC k) v (Seg.tok VKind.bs k) = Seg.tok VKind.bs k by
      rw [segRep]; exact if_neg (hne VKind.bs VKind.c (by decide))]
    rw [show segRep (varCS k) v (Seg.tok VKind.bs k) = Seg.tok VKind.bs k by
      rw [segRep]; exact if_neg (hne VKind.bs VKind.cs (by decide))]
    rw [show segRep (varB k) v (Seg.tok VKind.bs k) = Seg.tok VKind.bs k by
      rw [segRep]; exact if_neg (hne VKind.bs VKind.b (by decide))]
    rw [show segRep (varBS k) v (Seg.tok VKind.bs k) = Seg.lit v by
      rw [segRep]; exact if_pos rfl]

theorem segRepKey_tok_cases (k v : List Char) (vb : VKind) (k2 : List Char) :
    segRepKey k v (Seg.tok vb k2) = Seg.tok vb k2 ∨
    segRepKey k v (Seg.tok vb k2) = Seg.lit v := by
  unfold segRepKey
  by_cases h1 : renderV vb k2 = varC k
  · right
    rw [show segRep (varC k) v (Seg.tok vb k2) = Seg.lit v by
      rw [segRep]; exact if_pos h1]
    rfl
  · rw [show segRep (varC k) v (Seg.tok vb k2) = Seg.tok vb k2 by
      rw [segRep]; exact if_neg h1]
    by_cases h2 : renderV vb k2 = varCS k
    · right
      rw [show segRep (varCS k) v (Seg.tok vb k2) = Seg.lit v by
        rw [segRep]; exact if_pos h2]
      rfl
    · rw [show segRep (varCS k) v (Seg.tok vb k2) = Seg.tok vb k2 by
        rw [segRep]; exact if_neg h2]
      by_cases h3 : renderV vb k2 = varB k
      · right
        rw [show segRep (varB k) v (Seg.tok vb k2) = Seg.lit v by
          rw [segRep]; exact if_pos h3]
        rfl
      · rw [show segRep (varB k) v (Seg.tok vb k2) = Seg.tok vb k2 by
          rw [segRep]; exact if_neg h3]
        by_cases h4 : renderV vb k2 = varBS k
        · right
          rw [segRep]
          exact if_pos h4
        · left
          rw [segRep]
          exact if_neg h4

theorem segRepKey_tok_other (k v : List Char) (hk : goodKey k = true) (vb : VKind)
    (k2 : List Char) (hk2 : goodKey k2 = true) (hne : k2 ≠ k) :
    segRepKey k v (Seg.tok vb k2) = Seg.tok vb k2 := by
  have h : ∀ va : VKind, renderV vb k2 ≠ renderV va k :=
    fun va hh => hne (renderV_inj vb va k2 k hk2 hk hh).2
  unfold segRepKey
  rw [show segRep (varC k) v (Seg.tok vb k2) = Seg.tok vb k2 by
    rw [segRep]; exact if_neg (h VKind.c)]
  rw [show segRep (varCS k) v (Seg.tok vb k2) = Seg.tok vb k2 by
    rw [segRep]; exact if_neg (h VKind.cs)]
  rw [show segRep (varB k) v (Seg.tok vb k2) = Seg.tok vb k2 by
    rw [segRep]; exact if_neg (h VKind.b)]
  rw [segRep]
  exact if_neg (h VKind.bs)

theorem segRepKey_good (k v : List Char) (hv : cleanStr v = true) (s : Seg)
    (hs : goodSeg s = true) : goodSeg (segRepKey k v s) = true := by
  unfold segRepKey
  exact goodSeg_segRep _ v hv _ (goodSeg_segRep _ v hv _
    (goodSeg_segRep _ v hv _ (goodSeg_segRep _ v hv _ hs)))

theorem applyKeySegs_good (k v : List Char) (hv : cleanStr v = true)
    (segs : List Seg) (hgood : ∀ s ∈ segs, goodSeg s = true) :
    ∀ s ∈ applyKeySegs k v segs, goodSeg s = true := by
  intro s hs
  rw [applyKeySegs_eq_map] at hs
  obtain ⟨s0, hs0, he⟩ := List.mem_map.mp hs
  exact he ▸ segRepKey_good k v hv s0 (hgood s0 hs0)

theorem applySegs_all_lit (m : Mapping) :
    ∀ segs : List Seg, goodMapping m = true → (∀ s ∈ segs, goodSeg s = true) →
    (∀ vb k2, Seg.tok vb k2 ∈ segs → k2 ∈ keysOf m) →
    ∀ s ∈ applySegs m segs, ∃ l, s = Seg.lit l ∧ cleanStr l = true := by
  induction m with
  | nil =>
    intro segs _ hgood hkeys s hs
    rw [show applySegs [] segs = segs from rfl] at hs
    cases s with
    | lit l => exact ⟨l, rfl, hgood _ hs⟩
    | tok vb k2 =>
      have := hkeys vb k2 hs
      simp [keysOf] at this
  | cons kv m' ih =>
    intro segs hm hgood hkeys s hs
    have hmm := hm
    rw [goodMapping, List.all_cons, Bool.and_eq_true] at hmm
    have hmkv : goodKey kv.1 = true ∧ cleanStr kv.2 = true := by
      have := hmm.1
      simp only [Bool.and_eq_true] at this
      exact this
    have hm' : goodMapping m' = true := hmm.2
    have hkey : goodKey (pyStrip kv.1) = true := by
      rw [pyStrip_id_of_goodKey kv.1 hmkv.1]
      exact hmkv.1
    rw [show applySegs (kv :: m') segs =
      applySegs m' (applyKeySegs (pyStrip kv.1) kv.2 segs) from rfl] at hs
    refine ih (applyKeySegs (pyStrip kv.1) kv.2 segs) hm'
      (applyKeySegs_good _ _ hmkv.2 segs hgood) ?_ s hs
    intro vb k2 hmem
    rw [applyKeySegs_eq_map] at hmem
    obtain ⟨s0, hs0, he⟩ := List.mem_map.mp hmem
    cases s0 with
    | lit l => rw [segRepKey_lit] at he; exact absurd he (by simp)
    | tok vb0 k0 =>
      have hk0 : goodKey k0 = true := hgood _ hs0
      by_cases hk0eq : k0 = pyStrip kv.1
      · subst hk0eq
        rw [segRepKey_tok_same _ _ hkey] at he
        exact absurd he (by simp)
      · rw [segRepKey_tok_other _ _ hkey vb0 k0 hk0 hk0eq] at he
        injection he with h1 h2
        subst h1
        subst h2
        have := hkeys vb0 k0 hs0
        simp [keysOf] at this ⊢
        rcases this with h | h
        · exact absurd h hk0eq
        · exact h

theorem runHit_parts (k t : List Char) (h : runHit k t = false) :
    occursIn (varC k) t = false ∧ occursIn (varCS k) t = false ∧
    occursIn (varB k) t = false ∧ occursIn (varBS k) t = false := by
  rw [runHit] at h
  simp only [Bool.or_eq_false_iff] at h
  exact ⟨h.1.1.1, h.1.1.2, h.1.2, h.2⟩

theorem applyKeySegs_id (k v : List Char) (segs : List Seg)
    (h : runHit k (segsStr segs) = false) : applyKeySegs k v segs = segs := by
  obtain ⟨h1, h2, h3, h4⟩ := runHit_parts k _ h
  rw [applyKeySegs_eq_map]
  have hid : ∀ s ∈ segs, segRepKey k v s = s := by
    intro s hs
    cases s with
    | lit l => exact segRepKey_lit k v l
    | tok vb k2 =>
      have hocc := tok_occurs segs vb k2 hs
      have hne : ∀ w : List Char, occursIn w (segsStr segs) = false →
          renderV vb k2 = w → False := by
        intro w hwf hc
        rw [hc, hwf] at hocc
        exact absurd hocc (by simp)
      unfold segRepKey
      rw [show segRep (varC k) v (Seg.tok vb k2) = Seg.tok vb k2 by
        rw [segRep]; exact if_neg (fun hc => hne (varC k) h1 hc)]
      rw [show segRep (varCS k) v (Seg.tok vb k2) = Seg.tok vb k2 by
        rw [segRep]; exact if_neg (fun hc => hne (varCS k) h2 hc)]
      rw [show segRep (varB k) v (Seg.tok vb k2) = Seg.tok vb k2 by
        rw [segRep]; exact if_neg (fun hc => hne (varB k) h3 hc)]
      rw [segRep]
      exact if_neg (fun hc => hne (varBS k) h4 hc)
  calc segs.map (segRepKey k v) = segs.map id := List.map_congr_left hid
    _ = segs := List.map_id segs

theorem applySegs_id_of_not_hit (m : Mapping) : ∀ segs : List Seg,
    segsHit m segs = false → applySegs m segs = segs := by
  induction m with
  | nil => intro segs _; rfl
  | cons kv m' ih =>
    intro segs hflag
    rw [show segsHit (kv :: m') segs = (runHit (pyStrip kv.1) (segsStr segs) ||
      segsHit m' (applyKeySegs (pyStrip kv.1) kv.2 segs)) from rfl] at hflag
    simp only [Bool.or_eq_false_iff] at hflag
    rw [show applySegs (kv :: m') segs =
      applySegs m' (applyKeySegs (pyStrip kv.1) kv.2 segs) from rfl]
    rw [applyKeySegs_id _ _ _ hflag.1]
    rw [applyKeySegs_id _ _ _ hflag.1] at hflag
    exact ih segs hflag.2

theorem goodMapping_parts (kv : List Char × List Char) (m' : Mapping)
    (hm : goodMapping (kv :: m') = true) :
    goodKey kv.1 = true ∧ cleanStr kv.2 = true ∧ goodMapping m' = true ∧
    goodKey (pyStrip kv.1) = true := by
  have hmm := hm
  rw [goodMapping, List.all_cons, Bool.and_eq_true] at hmm
  have h1 : goodKey kv.1 = true ∧ cleanStr kv.2 = true := by
    have := hmm.1
    simp only [Bool.and_eq_true] at this
    exact this
  refine ⟨h1.1, h1.2, hmm.2, ?_⟩
  rw [pyStrip_id_of_goodKey kv.1 h1.1]
  exact h1.1

theorem fastPathText_segs (m : Mapping) : ∀ (segs : List Seg) (c : Bool),
    goodMapping m = true → (∀ s ∈ segs, goodSeg s = true) →
    fastPathText m (segsStr segs) c =
      (segsStr (applySegs m segs), (c || segsHit m segs)) := by
  induction m with
  | nil =>
    intro segs c _ _
    rw [show fastPathText [] (segsStr segs) c = (segsStr segs, c) from rfl]
    rw [show applySegs [] segs = segs from rfl]
    rw [show segsHit [] segs = false from rfl]
    rw [Bool.or_false]
  | cons kv m' ih =>
    intro segs c hm hgood
    obtain ⟨hk1, hv1, hm', hkey⟩ := goodMapping_parts kv m' hm
    obtain ⟨kk, vv⟩ := kv
    rw [show fastPathText ((kk, vv) :: m') (segsStr segs) c =
      (if runHit (pyStrip kk) (segsStr segs) then
        fastPathText m' (replace4 (pyStrip kk) vv (segsStr segs)) true
      else fastPathText m' (segsStr segs) c) from rfl]
    by_cases hhit : runHit (pyStrip kk) (segsStr segs) = true
    · rw [if_pos hhit]
      obtain ⟨h4, g4⟩ := replace4_segs (pyStrip kk) vv hkey hv1 segs hgood
      rw [h4]
      rw [ih (applyKeySegs (pyStrip kk) vv segs) true hm' g4]
      rw [show applySegs ((kk, vv) :: m') segs =
        applySegs m' (applyKeySegs (pyStrip kk) vv segs) from rfl]
      rw [show segsHit ((kk, vv) :: m') segs = (runHit (pyStrip kk) (segsStr segs) ||
        segsHit m' (applyKeySegs (pyStrip kk) vv segs)) from rfl]
      rw [hhit]
      simp
    · rw [if_neg hhit]
      have hf : runHit (pyStrip kk) (segsStr segs) = false := by
        simpa using hhit
      rw [ih segs c hm' hgood]
      rw [show applySegs ((kk, vv) :: m') segs =
        applySegs m' (applyKeySegs (pyStrip kk) vv segs) from rfl]
      rw [show segsHit ((kk, vv) :: m') segs = (runHit (pyStrip kk) (segsStr segs) ||
        segsHit m' (applyKeySegs (pyStrip kk) vv segs)) from rfl]
      rw [applyKeySegs_id _ _ _ hf, hf]
      simp

theorem segsHit_true_of_tok (m : Mapping) : ∀ (segs : List Seg),
    goodMapping m = true → (∀ s ∈ segs, goodSeg s = true) →
    ∀ vb k2, Seg.tok vb k2 ∈ segs → k2 ∈ keysOf m → segsHit m segs = true := by
  induction m with
  | nil =>
    intro segs _ _ vb k2 _ hk2
    simp [keysOf] at hk2
  | cons kv m' ih =>
    intro segs hm hgood vb k2 hmem hk2
    obtain ⟨hk1, hv1, hm', hkey⟩ := goodMapping_parts kv m' hm
    rw [show segsHit (kv :: m') segs = (runHit (pyStrip kv.1) (segsStr segs) ||
      segsHit m' (applyKeySegs (pyStrip kv.1) kv.2 segs)) from rfl]
    by_cases hkeq : k2 = pyStrip kv.1
    · subst hkeq
      have hocc := tok_occurs segs vb _ hmem
      have hrh : runHit (pyStrip kv.1) (segsStr segs) = true := by
        rw [runHit]
        cases vb <;> simp [renderV] at hocc <;> simp [hocc]
      rw [hrh]
      simp
    · have hk2g : goodKey k2 = true := hgood _ hmem
      have hsurv : Seg.tok vb k2 ∈ applyKeySegs (pyStrip kv.1) kv.2 segs := by
        rw [applyKeySegs_eq_map]
        have hrep := segRepKey_tok_other (pyStrip kv.1) kv.2 hkey vb k2 hk2g hkeq
        exact hrep ▸ List.mem_map_of_mem _ hmem
      have hk2' : k2 ∈ keysOf m' := by
        simp [keysOf] at hk2 ⊢
        rcases hk2 with h | h
        · exact absurd h hkeq
        · exact h
      have := ih (applyKeySegs (pyStrip kv.1) kv.2 segs) hm'
        (applyKeySegs_good _ _ hv1 segs hgood) vb k2 hsurv hk2'
      rw [this]
      simp

theorem fastPathRun_segs (m : Mapping) (r : Run) (segs : List Seg)
    (hr : r.text = segsStr segs) (hm : goodMapping m = true)
    (hgood : ∀ s ∈ segs, goodSeg s = true) :
    (fastPathRun m r).1.text = segsStr (applySegs m segs) ∧
    (fastPathRun m r).2 = segsHit m segs := by
  unfold fastPathRun
  rw [hr, fastPathText_segs m segs false hm hgood]
  simp only [Bool.false_or]
  by_cases hflag : segsHit m segs = true
  · rw [hflag]
    simp
  · have hf : segsHit m segs = false := by simpa using hflag
    rw [hf]
    simp only [Bool.false_eq_true, if_false]
    exact ⟨by rw [hr, applySegs_id_of_not_hit m segs hf], trivial⟩

theorem cleanStr_append (a b : List Char) :
    cleanStr (a ++ b) = (cleanStr a && cleanStr b) := by
  simp [cleanStr, List.all_append]

theorem cleanStr_tail (c : Char) (t : List Char) (h : cleanStr (c :: t) = true) :
    isDelim c = false ∧ cleanStr t = true := by
  rw [cleanStr, List.all_cons, Bool.and_eq_true] at h
  exact ⟨by simpa using h.1, h.2⟩

theorem segsStr_all_lit_clean : ∀ segs : List Seg,
    (∀ s ∈ segs, ∃ l, s = Seg.lit l ∧ cleanStr l = true) →
    cleanStr (segsStr segs) = true := by
  intro segs
  induction segs with
  | nil => intro _; rfl
  | cons sg rest ih =>
    intro h
    obtain ⟨l, he, hc⟩ := h sg (by simp)
    subst he
    rw [show segsStr (Seg.lit l :: rest) = l ++ segsStr rest by simp [segsStr, segStr]]
    rw [cleanStr_append, hc, ih (fun s hs => h s (by simp [hs]))]
    rfl

theorem cleanStr_flatten : ∀ ls : List (List Char),
    (∀ x ∈ ls, cleanStr x = true) → cleanStr ls.flatten = true := by
  intro ls
  induction ls with
  | nil => intro _; rfl
  | cons x rest ih =>
    intro h
    rw [List.flatten_cons, cleanStr_append, h x (by simp),
      ih (fun y hy => h y (by simp [hy]))]
    rfl

theorem not_occursIn_of_clean (d0 : Char) (w0 : List Char) (hd : isDelim d0 = true) :
    ∀ s : List Char, cleanStr s = true → occursIn (d0 :: w0) s = false := by
  intro s
  induction s with
  | nil => intro _; rfl
  | cons c t ih =>
    intro hs
    obtain ⟨hc, hst⟩ := cleanStr_tail c t hs
    rw [occursIn]
    rw [show (d0 :: w0).isPrefixOf (c :: t) = ((d0 == c) && w0.isPrefixOf t) from rfl]
    have hdc : (d0 == c) = false := clean_mem_ne (c :: t) hs c (by simp) d0 hd
    rw [hdc, ih hst]
    rfl

theorem variant_no_occ_of_clean (va : VKind) (k s : List Char)
    (hs : cleanStr s = true) : occursIn (renderV va k) s = false := by
  cases va with
  | c => exact not_occursIn_of_clean '{' _ (by decide) s hs
  | cs => exact not_occursIn_of_clean '{' _ (by decide) s hs
  | b => exact not_occursIn_of_clean '[' _ (by decide) s hs
  | bs => exact not_occursIn_of_clean '[' _ (by decide) s hs

theorem findall_nil_of_clean : ∀ s : List Char, cleanStr s = true → findall s = [] := by
  intro s
  induction s with
  | nil => intro _; simp [findall]
  | cons c t ih =>
    intro hs
    obtain ⟨hc, hst⟩ := cleanStr_tail c t hs
    have hcb : c ≠ '{' ∧ c ≠ '[' := by
      constructor <;> (intro he; subst he; simp [isDelim] at hc)
    rw [findall.eq_def]
    split
    next r heq =>
      exfalso
      injection heq with h1 _
      exact hcb.1 h1
    next r heq =>
      exfalso
      injection heq with h1 _
      exact hcb.2 h1
    next c2 s2 heq =>
      injection heq with h1 h2
      subst h1
      subst h2
      exact ih hst
    next heq => exact absurd heq (by simp)

theorem mem_tokKeys (segs : List Seg) (vb : VKind) (k2 : List Char)
    (h : Seg.tok vb k2 ∈ segs) : k2 ∈ tokKeys segs := by
  rw [tokKeys, List.mem_filterMap]
  exact ⟨Seg.tok vb k2, h, rfl⟩

/-- The engine leaves a delimiter-free assembled text on every paragraph
satisfying the segmentation hypothesis. -/
theorem processParagraph_clean (m : Mapping) (p : Paragraph)
    (hm : goodMapping m = true) (hp : C1Hyp m p) :
    cleanStr (parText (processParagraph m p)) = true := by
  have hfp_text : parText (fastPath m p).1 =
      (p.runs.map (fun r => (fastPathRun m r).1.text)).flatten := by
    simp [fastPath, parText, List.map_map, Function.comp_def]
  rcases hp with hruns | ⟨hfp, segs, htext, hgood, hkeys⟩
  · by_cases hflag : (fastPath m p).2 = true
    · have hproc : processParagraph m p = (fastPath m p).1 := by
        rw [processParagraph, if_pos hflag]
      rw [hproc, hfp_text]
      apply cleanStr_flatten
      intro x hx
      obtain ⟨r, hr, he⟩ := List.mem_map.mp hx
      obtain ⟨segsr, ht, hg, hk⟩ := hruns r hr
      rw [← he, (fastPathRun_segs m r segsr ht hm hg).1]
      apply segsStr_all_lit_clean
      apply applySegs_all_lit m segsr hm hg
      intro vb k2 hmem
      exact hk k2 (mem_tokKeys segsr vb k2 hmem)
    · have hff : (fastPath m p).2 = false := by simpa using hflag
      have hall : ∀ r ∈ p.runs, (fastPathRun m r).2 = false := by
        intro r hr
        have h2 : ((p.runs.map (fastPathRun m)).any Prod.snd) = false := by
          rw [show (fastPath m p).2 =
            (p.runs.map (fastPathRun m)).any Prod.snd from rfl] at hff
          exact hff
        rw [List.any_eq_false] at h2
        have := h2 _ (List.mem_map_of_mem _ hr)
        simpa using this
      have hrclean : ∀ r ∈ p.runs, cleanStr r.text = true := by
        intro r hr
        obtain ⟨segsr, ht, hg, hk⟩ := hruns r hr
        have hflagr := (fastPathRun_segs m r segsr ht hm hg).2
        rw [hall r hr] at hflagr
        have hnotok : ∀ s ∈ segsr, ∃ l, s = Seg.lit l ∧ cleanStr l = true := by
          intro s hs
          cases s with
          | lit l => exact ⟨l, rfl, hg _ hs⟩
          | tok vb k2 =>
            exfalso
            have hhit := segsHit_true_of_tok m segsr hm hg vb k2 hs
              (hk k2 (mem_tokKeys _ _ _ hs))
            rw [← hflagr] at hhit
            exact absurd hhit (by simp)
        rw [ht]
        exact segsStr_all_lit_clean segsr hnotok
      have hptext : cleanStr (parText p) = true := by
        rw [parText]
        apply cleanStr_flatten
        intro x hx
        obtain ⟨r, hr, he⟩ := List.mem_map.mp hx
        rw [← he]
        exact hrclean r hr
      have hsub : substAll m (parText p) = parText p := by
        apply substAll_of_not_occurs
        intro kv _ w hw
        simp only [variantsOf, List.mem_cons, List.not_mem_nil, or_false] at hw
        rcases hw with h | h | h | h <;> subst h
        · exact variant_no_occ_of_clean VKind.c (pyStrip kv.1) _ hptext
        · exact variant_no_occ_of_clean VKind.cs (pyStrip kv.1) _ hptext
        · exact variant_no_occ_of_clean VKind.b (pyStrip kv.1) _ hptext
        · exact variant_no_occ_of_clean VKind.bs (pyStrip kv.1) _ hptext
      have hproc : processParagraph m p = p := by
        rw [processParagraph, hff]
        simp only [Bool.false_eq_true, if_false]
        rw [fallbackPar, if_pos hsub]
      rw [hproc]
      exact hptext
  · have hproc : processParagraph m p = fallbackPar m p := by
      rw [processParagraph, hfp]
      simp
    obtain ⟨hsubeq, hgood2⟩ := substAll_segs m segs hm hgood
    have hsub : substAll m (parText p) = segsStr (applySegs m segs) := by
      rw [htext]
      exact hsubeq
    have hclean2 : cleanStr (segsStr (applySegs m segs)) = true := by
      apply segsStr_all_lit_clean
      apply applySegs_all_lit m segs hm hgood
      intro vb k2 hmem
      exact hkeys k2 (mem_tokKeys segs vb k2 hmem)
    rw [hproc, fallbackPar]
    by_cases heq2 : substAll m (parText p) = parText p
    · rw [if_pos heq2]
      rw [← heq2, hsub]
      exact hclean2
    · rw [if_neg heq2]
      cases hrs : p.runs with
      | nil =>
        rw [show parText (⟨[newRun (substAll m (parText p))]⟩ : Paragraph) =
          substAll m (parText p) by simp [parText, newRun]]
        rw [hsub]
        exact hclean2
      | cons r0 rr =>
        rw [show parText (⟨[carryRun r0 (substAll m (parText p))]⟩ : Paragraph) =
          substAll m (parText p) by simp [parText, carryRun]]
        rw [hsub]
        exact hclean2

/-- C1 (amended): the claim as stated fails on the code (see the
counterexample); it holds under the well-formedness hypotheses the code's
two-path design actually requires: a well-formed mapping (nonempty trimmed
keys and delimiter-free keys and values), every brace/bracket of the
document lying inside an exact token variant of a mapped key, and each
paragraph either having all its tokens inside single runs or having no run
touched by the fast path.  Then no token variant of any mapped key survives
anywhere in the filled document's assembled texts, and scanning the result
finds no field names at all — in particular none of the mapping's keys. -/
theorem C1_amended (d : Doc) (m : Mapping) (hm : goodMapping m = true)
    (hseg : ∀ p ∈ docPars d, C1Hyp m p) :
    (∀ q ∈ docPars (fill_docx_template m d),
      cleanStr (parText q) = true ∧
      ∀ kv ∈ m, ∀ w ∈ variantsOf (pyStrip kv.1), occursIn w (parText q) = false) ∧
    extract_placeholders (fill_docx_template m d) = [] ∧
    ∀ kv ∈ m, pyStrip kv.1 ∉ extract_placeholders (fill_docx_template m d) := by
  have hq : ∀ q ∈ docPars (fill_docx_template m d), cleanStr (parText q) = true := by
    intro q hqq
    rw [docPars_fill] at hqq
    obtain ⟨p, hp, he⟩ := List.mem_map.mp hqq
    rw [← he]
    exact processParagraph_clean m p hm (hseg p hp)
  have hempty : extract_placeholders (fill_docx_template m d) = [] := by
    rw [extract_placeholders]
    have hnames : docNames (fill_docx_template m d) = [] := by
      rw [docNames]
      rw [List.flatMap_eq_nil_iff]
      intro x hx
      obtain ⟨q, hqq, he⟩ := List.mem_map.mp hx
      rw [← he, parNames, findall_nil_of_clean (parText q) (hq q hqq)]
      rfl
    rw [hnames]
    rfl
  refine ⟨?_, hempty, ?_⟩
  · intro q hqq
    refine ⟨hq q hqq, ?_⟩
    intro kv _ w hw
    simp only [variantsOf, List.mem_cons, List.not_mem_nil, or_false] at hw
    rcases hw with h | h | h | h <;> subst h
    · exact variant_no_occ_of_clean VKind.c (pyStrip kv.1) _ (hq q hqq)
    · exact variant_no_occ_of_clean VKind.cs (pyStrip kv.1) _ (hq q hqq)
    · exact variant_no_occ_of_clean VKind.b (pyStrip kv.1) _ (hq q hqq)
    · exact variant_no_occ_of_clean VKind.bs (pyStrip kv.1) _ (hq q hqq)
  · intro kv _ hmem
    rw [hempty] at hmem
    exact absurd hmem (by simp)

theorem C1_amended_witness :
    goodMapping [(['A'], ['x'])] = true ∧
    extract_placeholders (fill_docx_template [(['A'], ['x'])]
      ⟨[⟨[{ text := ['[', 'A', ']'] }]⟩], [], some []⟩) = [] := by
  refine ⟨by decide, (C1_amended ⟨[⟨[{ text := ['[', 'A', ']'] }]⟩], [], some []⟩
    [(['A'], ['x'])] (by decide) ?_).2.1⟩
  intro p hp
  have hp2 : p = ⟨[{ text := ['[', 'A', ']'] }]⟩ := by
    simpa [docPars, tablePars, sectPars, hfPars] using hp
  subst hp2
  left
  intro r hr
  simp only [List.mem_singleton] at hr
  subst hr
  exact ⟨[Seg.tok VKind.b ['A']], by decide, by decide, by decide⟩

/-- C1 counterexample: with mapping `{A ↦ x, B ↦ y}` and one paragraph whose
runs are `"[A]"`, `"["`, `"B"`, `"]"`, both keys appear as tokens in the
assembled text `"[A][B]"`, yet after `fill_docx_template` the fast path
(which fires on the `"[A]"` run) skips the fallback, the result's assembled
text `"x[B]"` still contains `[B]`, and `extract_placeholders` on the result
returns key `B`. -/
theorem C1_counterexample :
    occursIn (varB (pyStrip ['A']))
      (parText ⟨[{ text := ['[', 'A', ']'] }, { text := ['['] },
        { text := ['B'] }, { text := [']'] }]⟩) = true ∧
    occursIn (varB (pyStrip ['B']))
      (parText ⟨[{ text := ['[', 'A', ']'] }, { text := ['['] },
        { text := ['B'] }, { text := [']'] }]⟩) = true ∧
    parText (processParagraph [(['A'], ['x']), (['B'], ['y'])]
      ⟨[{ text := ['[', 'A', ']'] }, { text := ['['] },
        { text := ['B'] }, { text := [']'] }]⟩) = ['x', '[', 'B', ']'] ∧
    occursIn (varB (pyStrip ['B']))
      (parText (processParagraph [(['A'], ['x']), (['B'], ['y'])]
        ⟨[{ text := ['[', 'A', ']'] }, { text := ['['] },
          { text := ['B'] }, { text := [']'] }]⟩)) = true ∧
    extract_placeholders (fill_docx_template [(['A'], ['x']), (['B'], ['y'])]
      ⟨[⟨[{ text := ['[', 'A', ']'] }, { text := ['['] },
        { text := ['B'] }, { text := [']'] }]⟩], [], some []⟩) = [['B']] := by
  have hpp : processParagraph [(['A'], ['x']), (['B'], ['y'])]
      ⟨[{ text := ['[', 'A', ']'] }, { text := ['['] },
        { text := ['B'] }, { text := [']'] }]⟩ =
      ⟨[{ text := ['x'] }, { text := ['['] },
        { text := ['B'] }, { text := [']'] }]⟩ := by
    simp [processParagraph, fastPath, fastPathRun, fastPathText, runHit, occursIn,
      replace4, strReplace, varC, varCS, varB, varBS, pyStrip, pyWs,
      List.isPrefixOf, List.dropWhile]
  refine ⟨by decide, by decide, by rw [hpp]; decide, by rw [hpp]; decide, ?_⟩
  have hfill : fill_docx_template [(['A'], ['x']), (['B'], ['y'])]
      ⟨[⟨[{ text := ['[', 'A', ']'] }, { text := ['['] },
        { text := ['B'] }, { text := [']'] }]⟩], [], some []⟩ =
      ⟨[⟨[{ text := ['x'] }, { text := ['['] },
        { text := ['B'] }, { text := [']'] }]⟩], [], some []⟩ := by
    rw [fill_docx_template]
    simp only [List.map_cons, List.map_nil, hpp, Option.map_some']
  rw [hfill]
  have hfind : findall ['x', '[', 'B', ']'] = [['B']] := by
    simp [findall, findClose1, findClose2]
  simp [extract_placeholders, docNames, docPars, tablePars, sectPars, hfPars,
    parText, parNames, hfind, sortedNames, insSorted, ltStr, pyStrip, pyWs,
    List.dropWhile]

/-- C2: in a paragraph that contains both a token wholly inside one run
(for a mapped field `kA`, witnessed by a good segmentation of that run) and
a token for a mapped field `kB` split across a block `mid` of runs none of
which is touched by the fast path, the engine's fast path fires (the
changed flag is true), `processParagraph` therefore returns the fast-path
result and skips the fallback entirely, `kB`'s split token still occurs in
the resulting assembled paragraph text, and no variant of `kA` survives in
the rewritten run. -/
theorem C2_mixed_paragraph (m : Mapping) (p : Paragraph)
    (pre mid post : List Run) (rA : Run) (segsA : List Seg)
    (vA vB : VKind) (kA kB : List Char)
    (hm : goodMapping m = true)
    (hruns : p.runs = pre ++ mid ++ post)
    (hrA : rA ∈ p.runs)
    (hA1 : rA.text = segsStr segsA)
    (hA2 : ∀ s ∈ segsA, goodSeg s = true)
    (hA3 : Seg.tok vA kA ∈ segsA)
    (hA4 : kA ∈ keysOf m)
    (hA5 : ∀ vb k2, Seg.tok vb k2 ∈ segsA → k2 ∈ keysOf m)
    (hkB : kB ∈ keysOf m)
    (hmid : ∀ r ∈ mid, ∀ kv ∈ m, runHit (pyStrip kv.1) r.text = false)
    (hwB : occursIn (renderV vB kB) ((mid.map Run.text).flatten) = true)
    (hsplit : ∀ r ∈ mid, occursIn (renderV vB kB) r.text = false) :
    (fastPath m p).2 = true ∧
    processParagraph m p = (fastPath m p).1 ∧
    occursIn (renderV vB kB) (parText (processParagraph m p)) = true ∧
    ∀ v2, occursIn (renderV v2 kA) ((fastPathRun m rA).1.text) = false := by
  have hA := fastPathRun_segs m rA segsA hA1 hm hA2
  have hflagA : (fastPathRun m rA).2 = true := by
    rw [hA.2]
    exact segsHit_true_of_tok m segsA hm hA2 vA kA hA3 hA4
  have hflag : (fastPath m p).2 = true := by
    show (p.runs.map (fastPathRun m)).any Prod.snd = true
    rw [List.any_eq_true]
    exact ⟨fastPathRun m rA, List.mem_map_of_mem _ hrA, hflagA⟩
  have hproc : processParagraph m p = (fastPath m p).1 := by
    rw [processParagraph, hflag]
    simp
  have hmid2 : ∀ r ∈ mid, fastPathRun m r = (r, false) := by
    intro r hr
    simp [fastPathRun, fastPathText_of_no_hit m r.text false (hmid r hr)]
  have hmm : ∀ l : List Run, (∀ r ∈ l, fastPathRun m r = (r, false)) →
      l.map (fun r => (fastPathRun m r).1) = l := by
    intro l
    induction l with
    | nil => intro _; rfl
    | cons a l2 ih =>
      intro h
      simp only [List.map_cons]
      rw [h a (List.mem_cons_self a l2),
        ih (fun r hr => h r (List.mem_cons_of_mem a hr))]
  have hocc : occursIn (renderV vB kB) (parText (fastPath m p).1) = true := by
    have hpt : parText (fastPath m p).1 =
        (((pre ++ mid ++ post).map (fun r => (fastPathRun m r).1)).map
          Run.text).flatten := by
      show (((p.runs.map (fastPathRun m)).map Prod.fst).map Run.text).flatten = _
      rw [hruns]
      simp only [List.map_map, List.map_append, List.flatten_append]
      rfl
    rw [hpt]
    simp only [List.map_append, List.flatten_append]
    rw [hmm mid hmid2]
    apply occursIn_append_right
    apply occursIn_append_left
    exact hwB
  have hclean : cleanStr ((fastPathRun m rA).1.text) = true := by
    rw [hA.1]
    exact segsStr_all_lit_clean _ (applySegs_all_lit m segsA hm hA2 hA5)
  refine ⟨hflag, hproc, ?_, ?_⟩
  · rw [hproc]
    exact hocc
  · intro v2
    exact variant_no_occ_of_clean v2 kA _ hclean

theorem C2_mixed_paragraph_witness :
    goodMapping [(['A'], ['x']), (['B'], ['y'])] = true ∧
    occursIn (renderV VKind.b ['B'])
      (parText (processParagraph [(['A'], ['x']), (['B'], ['y'])]
        ⟨[{ text := ['[', 'A', ']'] }, { text := ['['] },
          { text := ['B'] }, { text := [']'] }]⟩)) = true :=
  ⟨by decide,
   (C2_mixed_paragraph [(['A'], ['x']), (['B'], ['y'])]
      ⟨[{ text := ['[', 'A', ']'] }, { text := ['['] },
        { text := ['B'] }, { text := [']'] }]⟩
      [{ text := ['[', 'A', ']'] }]
      [{ text := ['['] }, { text := ['B'] }, { text := [']'] }]
      [] { text := ['[', 'A', ']'] } [Seg.tok VKind.b ['A']]
      VKind.b VKind.b ['A'] ['B']
      (by decide) (by decide) (by decide) (by decide) (by decide) (by decide)
      (by decide)
      (by
        intro vb k2 h
        simp only [List.mem_singleton] at h
        injection h with h1 h2
        subst h2
        decide)
      (by decide) (by decide) (by decide) (by decide)).2.2.1⟩

end GLR
